import Mathlib

/-!
Verification development for `pdf2epub.py`, a PDF → EPUB converter.

The Python source is shallowly embedded below:
* strings are modelled as `List Char` (Python `str` is a sequence of code
  points), bytes as `List Nat`;
* the two regular-expression substitutions of `clean_chinese_text` are
  embedded as recursive scanners with the exact leftmost, non-overlapping,
  greedy semantics of `re.sub`;
* calls into external libraries (PIL image decoding, PyMuPDF rasterisation)
  are modelled as oracle functions supplied as parameters; the control flow
  around them (try/except, skip-and-continue, box priority) is taken from
  the source;
* character casing is modelled on the ASCII range (`a`-`z`, `A`-`Z`); all
  other characters are un-cased, as in Python for non-letter code points.
-/

/-! ## Character classes -/

/-- Whitespace as matched by Python's `\s` on `str` and stripped by
`str.strip()`: ASCII whitespace, the C1 separators, NBSP, and the Unicode
space separators (including U+3000, the ideographic space). -/
def isPySpace (c : Char) : Bool :=
  decide (c.toNat = 0x9 ∨ c.toNat = 0xa ∨ c.toNat = 0xb ∨ c.toNat = 0xc ∨
    c.toNat = 0xd ∨ c.toNat = 0x1c ∨ c.toNat = 0x1d ∨ c.toNat = 0x1e ∨
    c.toNat = 0x1f ∨ c.toNat = 0x20 ∨ c.toNat = 0x85 ∨ c.toNat = 0xa0 ∨
    c.toNat = 0x1680 ∨ (0x2000 ≤ c.toNat ∧ c.toNat ≤ 0x200a) ∨
    c.toNat = 0x2028 ∨ c.toNat = 0x2029 ∨ c.toNat = 0x202f ∨
    c.toNat = 0x205f ∨ c.toNat = 0x3000)

/-- The character class of `chinese_pattern` (source line 15):
`[一-鿿㐀-䶿豈-﫿　-〿＀-￯]`. -/
def isCJK (c : Char) : Bool :=
  decide ((0x4e00 ≤ c.toNat ∧ c.toNat ≤ 0x9fff) ∨
    (0x3400 ≤ c.toNat ∧ c.toNat ≤ 0x4dbf) ∨
    (0xf900 ≤ c.toNat ∧ c.toNat ≤ 0xfaff) ∨
    (0x3000 ≤ c.toNat ∧ c.toNat ≤ 0x303f) ∨
    (0xff00 ≤ c.toNat ∧ c.toNat ≤ 0xffef))

/-- Uppercase letter (cased character model, ASCII range). -/
def pyCharIsUpper (c : Char) : Bool :=
  decide (0x41 ≤ c.toNat ∧ c.toNat ≤ 0x5a)

/-- Lowercase letter (cased character model, ASCII range). -/
def pyCharIsLower (c : Char) : Bool :=
  decide (0x61 ≤ c.toNat ∧ c.toNat ≤ 0x7a)

/-- A cased character: uppercase or lowercase. -/
def pyCharIsCased (c : Char) : Bool :=
  pyCharIsUpper c || pyCharIsLower c

/-- Python `str.isupper()`: all cased characters are uppercase and there is
at least one cased character. -/
def pyIsUpper (l : List Char) : Bool :=
  l.any pyCharIsCased && l.all (fun c => !(pyCharIsCased c) || pyCharIsUpper c)

/-- Decimal digit. -/
def pyCharIsDigit (c : Char) : Bool :=
  decide (0x30 ≤ c.toNat ∧ c.toNat ≤ 0x39)

/-- Word character for `re.findall(r'\w+', ...)` (only the count of word
runs is ever used by the program, and only for progress printing):
modelled as ASCII alphanumerics, underscore and CJK characters. -/
def pyCharIsWord (c : Char) : Bool :=
  pyCharIsUpper c || pyCharIsLower c || pyCharIsDigit c ||
    decide (c.toNat = 0x5f) || isCJK c

/-! ## Python string helpers -/

/-- `str.strip()` from the left: drop leading whitespace. -/
def dropLeadingWs (l : List Char) : List Char :=
  l.dropWhile isPySpace

/-- `str.strip()` from the right: drop trailing whitespace. -/
def dropTrailingWs (l : List Char) : List Char :=
  (l.reverse.dropWhile isPySpace).reverse

/-- Python `str.strip()`. -/
def pyStrip (l : List Char) : List Char :=
  dropTrailingWs (dropLeadingWs l)

/-- Python `text.split('\n\n')`: split on leftmost, non-overlapping
occurrences of the two-character separator. -/
def splitNN : List Char → List (List Char)
  | [] => [[]]
  | '\n' :: '\n' :: rest => [] :: splitNN rest
  | c :: rest =>
    match splitNN rest with
    | s :: ss => (c :: s) :: ss
    | [] => [[c]]

/-- Python `para.split('\n')`. -/
def splitNL : List Char → List (List Char)
  | [] => [[]]
  | '\n' :: rest => [] :: splitNL rest
  | c :: rest =>
    match splitNL rest with
    | s :: ss => (c :: s) :: ss
    | [] => [[c]]

/-- Python `' '.join(lines)`. -/
def joinSpace : List (List Char) → List Char
  | [] => []
  | [l] => l
  | l :: ls => l ++ ' ' :: joinSpace ls

/-- Count of maximal runs of word characters, i.e.
`len(re.findall(r'\w+', text))` (source line 109). -/
def wordCount (l : List Char) : Nat :=
  ((l.map pyCharIsWord).dropWhile (fun b => b = false)).foldl
    (fun (acc : Nat × Bool) b =>
      if b then (if acc.2 then acc else (acc.1 + 1, true)) else (acc.1, false))
    (1, true) |>.1

/-! ## Decimal rendering of counters (Python `str(n)` / `f"{n:03d}"`) -/

/-- The decimal digit character for `n < 10`. -/
def decDigit (n : Nat) : Char :=
  match n with
  | 0 => '0' | 1 => '1' | 2 => '2' | 3 => '3' | 4 => '4'
  | 5 => '5' | 6 => '6' | 7 => '7' | 8 => '8' | 9 => '9'
  | _ => '*'

/-- Fuel-driven decimal rendering; correct whenever `n < 10 ^ fuel`. -/
def natCharsAux : Nat → Nat → List Char
  | 0, _ => []
  | fuel + 1, n =>
    if n < 10 then [decDigit n]
    else natCharsAux fuel (n / 10) ++ [decDigit (n % 10)]

/-- The decimal digits of `n`, as Python `str(n)` for a nonnegative int. -/
def natChars (n : Nat) : List Char :=
  natCharsAux (n + 1) n

/-- Python `f"{n:03d}"`: decimal digits left-padded with `'0'` to width 3. -/
def pad3 (n : Nat) : List Char :=
  List.replicate (3 - (natChars n).length) '0' ++ natChars n

/-- One step of reading a digit string back as a number. -/
def decStep (a : Nat) (c : Char) : Nat :=
  a * 10 + (c.toNat - 0x30)

/-- Reading a digit string back as a number (proof device used to show the
generated names are injective). -/
def charsToNat (l : List Char) : Nat :=
  l.foldl decStep 0

/-! ## `clean_chinese_text` (source lines 13-18) -/

theorem dropWhileLen {α : Type} (p : α → Bool) :
    ∀ l : List α, (l.dropWhile p).length ≤ l.length
  | [] => by simp [List.dropWhile]
  | c :: cs => by
    rw [List.dropWhile_cons]
    by_cases h : p c
    · rw [if_pos h]
      have := dropWhileLen p cs
      simp only [List.length_cons]
      omega
    · rw [if_neg h]

/-- Fuel-driven scanner for `re.sub(r'\s{2,}', ' ', text)`; the fuel only
serves termination and `collapseF fuel l = collapseF l.length l` whenever
`l.length ≤ fuel`. -/
def collapseF : Nat → List Char → List Char
  | 0, l => l
  | _, [] => []
  | _, [c] => [c]
  | fuel + 1, c :: d :: rest =>
    if isPySpace c then
      if isPySpace d then
        ' ' :: collapseF fuel ((d :: rest).dropWhile isPySpace)
      else c :: collapseF fuel (d :: rest)
    else c :: collapseF fuel (d :: rest)

/-- One `re.sub(r'\s{2,}', ' ', text)` scan: each maximal run of two or
more whitespace characters is replaced by a single ASCII space; a lone
whitespace character is kept as is. -/
def collapseWs (l : List Char) : List Char :=
  collapseF l.length l

theorem collapseF_fuel :
    ∀ (fuel fuel2 : Nat) (l : List Char), l.length ≤ fuel → l.length ≤ fuel2 →
      collapseF fuel l = collapseF fuel2 l
  | 0, fuel2, l, h, _ => by
    have hl : l = [] := List.eq_nil_of_length_eq_zero (by omega)
    subst hl
    cases fuel2 <;> rfl
  | fuel + 1, fuel2, [], _, _ => by cases fuel2 <;> rfl
  | fuel + 1, fuel2, [c], _, h2 => by
    simp only [List.length_singleton] at h2
    obtain ⟨f2, rfl⟩ : ∃ f2, fuel2 = f2 + 1 := ⟨fuel2 - 1, by omega⟩
    rfl
  | fuel + 1, fuel2, c :: d :: rest, h, h2 => by
    simp only [List.length_cons] at h h2
    obtain ⟨f2, rfl⟩ : ∃ f2, fuel2 = f2 + 1 := ⟨fuel2 - 1, by omega⟩
    show (if isPySpace c then
        if isPySpace d then ' ' :: collapseF fuel ((d :: rest).dropWhile isPySpace)
        else c :: collapseF fuel (d :: rest)
      else c :: collapseF fuel (d :: rest)) =
      (if isPySpace c then
        if isPySpace d then ' ' :: collapseF f2 ((d :: rest).dropWhile isPySpace)
        else c :: collapseF f2 (d :: rest)
      else c :: collapseF f2 (d :: rest))
    have hdw := dropWhileLen isPySpace (d :: rest)
    simp only [List.length_cons] at hdw
    have e1 : collapseF fuel ((d :: rest).dropWhile isPySpace) =
        collapseF f2 ((d :: rest).dropWhile isPySpace) :=
      collapseF_fuel fuel f2 _ (by omega) (by omega)
    have e2 : collapseF fuel (d :: rest) = collapseF f2 (d :: rest) :=
      collapseF_fuel fuel f2 _ (by simp; omega) (by simp; omega)
    rw [e1, e2]

theorem collapseWs_nil : collapseWs [] = [] := rfl

theorem collapseWs_singleton (c : Char) : collapseWs [c] = [c] := rfl

theorem collapseWs_cons (c d : Char) (rest : List Char) :
    collapseWs (c :: d :: rest) =
      (if isPySpace c then
        if isPySpace d then ' ' :: collapseWs ((d :: rest).dropWhile isPySpace)
        else c :: collapseWs (d :: rest)
      else c :: collapseWs (d :: rest)) := by
  show (if isPySpace c then
      if isPySpace d then ' ' :: collapseF (d :: rest).length ((d :: rest).dropWhile isPySpace)
      else c :: collapseF (d :: rest).length (d :: rest)
    else c :: collapseF (d :: rest).length (d :: rest)) = _
  unfold collapseWs
  have hdw := dropWhileLen isPySpace (d :: rest)
  rw [collapseF_fuel (d :: rest).length ((d :: rest).dropWhile isPySpace).length
    ((d :: rest).dropWhile isPySpace) hdw le_rfl]

/-- Attempt to match `' +(CJK)'` at the start of `cs`: succeeds when `cs`
consists of one or more ASCII spaces followed by a CJK character `d`,
returning `d` and the remainder after `d`. -/
def checkMatch (cs : List Char) : Option (Char × List Char) :=
  match cs.dropWhile (fun x => x = ' ') with
  | [] => none
  | d :: ds =>
    if !(cs.takeWhile (fun x => x = ' ')).isEmpty && isCJK d then
      some (d, ds)
    else none

theorem checkMatch_some_length {cs : List Char} {d : Char} {ds : List Char}
    (h : checkMatch cs = some (d, ds)) : ds.length < cs.length := by
  unfold checkMatch at h
  split at h
  next hd => exact absurd h (by simp)
  next e es hd =>
    split at h
    · injection h with h1
      injection h1 with h1 h2
      subst h2
      have hlen := dropWhileLen (fun x => x = ' ') cs
      rw [hd] at hlen
      simp only [List.length_cons] at hlen
      omega
    · exact absurd h (by simp)

/-- Fuel-driven scanner for the CJK squeeze pass; the fuel only serves
termination and `squeezeF fuel l = squeezeF l.length l` whenever
`l.length ≤ fuel`. -/
def squeezeF : Nat → List Char → List Char
  | 0, l => l
  | _, [] => []
  | fuel + 1, c :: cs =>
    if isCJK c then
      match checkMatch cs with
      | some (d, ds) => c :: d :: squeezeF fuel ds
      | none => c :: squeezeF fuel cs
    else c :: squeezeF fuel cs

/-- One `re.sub(f'({chinese_pattern}) +({chinese_pattern})', r'\1\2', text)`
scan: at each position, if a CJK character is followed by one or more
spaces and a CJK character, the spaces are deleted and scanning resumes
after the second CJK character. -/
def squeeze (l : List Char) : List Char :=
  squeezeF l.length l

theorem squeezeF_fuel :
    ∀ (fuel fuel2 : Nat) (l : List Char), l.length ≤ fuel → l.length ≤ fuel2 →
      squeezeF fuel l = squeezeF fuel2 l
  | 0, fuel2, l, h, _ => by
    have hl : l = [] := List.eq_nil_of_length_eq_zero (by omega)
    subst hl
    cases fuel2 <;> rfl
  | fuel + 1, fuel2, [], _, _ => by cases fuel2 <;> rfl
  | fuel + 1, fuel2, c :: cs, h, h2 => by
    simp only [List.length_cons] at h h2
    obtain ⟨f2, rfl⟩ : ∃ f2, fuel2 = f2 + 1 := ⟨fuel2 - 1, by omega⟩
    show (if isCJK c then
        match checkMatch cs with
        | some (d, ds) => c :: d :: squeezeF fuel ds
        | none => c :: squeezeF fuel cs
      else c :: squeezeF fuel cs) =
      (if isCJK c then
        match checkMatch cs with
        | some (d, ds) => c :: d :: squeezeF f2 ds
        | none => c :: squeezeF f2 cs
      else c :: squeezeF f2 cs)
    have ecs : squeezeF fuel cs = squeezeF f2 cs :=
      squeezeF_fuel fuel f2 cs (by omega) (by omega)
    by_cases hc : isCJK c = true
    · rw [if_pos hc, if_pos hc]
      rcases hm : checkMatch cs with - | ⟨d, ds⟩
      · show c :: squeezeF fuel cs = c :: squeezeF f2 cs
        rw [ecs]
      · have hds := checkMatch_some_length hm
        have eds : squeezeF fuel ds = squeezeF f2 ds :=
          squeezeF_fuel fuel f2 ds (by omega) (by omega)
        show c :: d :: squeezeF fuel ds = c :: d :: squeezeF f2 ds
        rw [eds]
    · rw [if_neg hc, if_neg hc, ecs]

theorem squeeze_nil : squeeze [] = [] := rfl

theorem squeeze_cons (c : Char) (cs : List Char) :
    squeeze (c :: cs) =
      (if isCJK c then
        match checkMatch cs with
        | some (d, ds) => c :: d :: squeeze ds
        | none => c :: squeeze cs
      else c :: squeeze cs) := by
  show (if isCJK c then
      match checkMatch cs with
      | some (d, ds) => c :: d :: squeezeF cs.length ds
      | none => c :: squeezeF cs.length cs
    else c :: squeezeF cs.length cs) = _
  unfold squeeze
  by_cases hc : isCJK c = true
  · rw [if_pos hc, if_pos hc]
    rcases hm : checkMatch cs with - | ⟨d, ds⟩
    · rfl
    · have hds := checkMatch_some_length hm
      show c :: d :: squeezeF cs.length ds = c :: d :: squeezeF ds.length ds
      rw [squeezeF_fuel cs.length ds.length ds (by omega) le_rfl]
  · rw [if_neg hc, if_neg hc]

theorem squeeze_cons_not_cjk {c : Char} {cs : List Char} (h : isCJK c = false) :
    squeeze (c :: cs) = c :: squeeze cs := by
  rw [squeeze_cons, if_neg (by simp [h])]

theorem squeeze_cons_none {c : Char} {cs : List Char} (h1 : isCJK c = true)
    (h2 : checkMatch cs = none) :
    squeeze (c :: cs) = c :: squeeze cs := by
  rw [squeeze_cons, if_pos h1, h2]

theorem squeeze_cons_some {c : Char} {cs : List Char} {d : Char} {ds : List Char}
    (h1 : isCJK c = true) (h2 : checkMatch cs = some (d, ds)) :
    squeeze (c :: cs) = c :: d :: squeeze ds := by
  rw [squeeze_cons, if_pos h1, h2]

/-- `clean_chinese_text` over `List Char`: collapse whitespace runs, apply
the CJK space-squeeze pass twice, then strip (source lines 13-18). -/
def cleanChineseChars (l : List Char) : List Char :=
  pyStrip (squeeze (squeeze (collapseWs l)))

/-- `clean_chinese_text(text)` (source lines 13-18). -/
def clean_chinese_text (s : String) : String :=
  ⟨cleanChineseChars s.data⟩

/-! ## Data model of the conversion pipeline (source lines 20-206)

External libraries are abstracted as data carried by the input:
* PyMuPDF rectangles carry their `is_empty` flag and their coordinates;
* a page's rasteriser (`get_pixmap` + JPEG encode) is a function from the
  chosen clip rectangle and dpi to either bytes or a raised error;
* PIL decoding inside `process_image`'s `try` block is an oracle
  `decode : List Nat → Option (List Nat)`, `none` meaning the decode
  raised (`UnidentifiedImageError` or any other exception). -/

/-- A PyMuPDF rectangle: its `is_empty` flag and its coordinates. -/
structure Rect where
  is_empty : Bool
  x0 : Int
  y0 : Int
  x1 : Int
  y1 : Int
deriving DecidableEq, Repr

/-- One `/XObject` entry of a page's resource dictionary. `data` is the
result of reading `xobj._data`, which the source guards with a bare
`except: continue` (lines 135-140). -/
structure XObject where
  subtypeIsImage : Bool
  data : Except Unit (List Nat)

/-- One page of the input document: the pypdf side (extracted text,
resource dictionary) merged with the PyMuPDF side (boxes, rasteriser).
`text` is `page.extract_text(extraction_mode="layout") or ""`;
`xobjects` is `none` when `"/Resources"` or `"/XObject"` is missing. -/
structure Page where
  text : List Char
  xobjects : Option (List XObject)
  bleedbox : Rect
  trimbox : Rect
  cropbox : Rect
  mediabox : Rect
  pixmap : Rect → Nat → Except Unit (List Nat)

/-- The input document: whether `PdfReader` / `fitz.open` succeed, the
(zipped) pages, and the base name of the input path. -/
structure PdfInput where
  openOk : Bool
  pages : List Page
  basename : String

/-- An EPUB resource (`epub.EpubItem`). Content bytes of the stylesheet
and of the chapter/navigation documents are abstracted as `[]`. -/
structure EpubItem where
  uid : String
  file_name : String
  media_type : String
  content : List Nat
deriving DecidableEq

/-- One block of the generated chapter markup, in emission order. Each
constructor corresponds to one f-string appended to `html_content`. -/
inductive Block where
  /-- `<h1>{title}</h1>` (line 99). -/
  | h1 (title : List Char)
  /-- `<p class="fullpage-img"><img src="{filename}" .../></p>` (line 123). -/
  | fullpageImg (filename : String) (page_num : Nat)
  /-- `<h2>{combined}</h2>` (line 170). -/
  | h2 (combined : List Char)
  /-- `<h3>{combined}</h3>` (line 172). -/
  | h3 (combined : List Char)
  /-- `<p class="noindent">` when `noindent`, else `<p class="indent">`
  (lines 176, 179). -/
  | para (noindent : Bool) (combined : List Char)
  /-- `<p class="inline-img"><img src="../{filename}" .../></p>` (line 153). -/
  | inlineImg (filename : String) (counter : Nat)
deriving DecidableEq

/-- Heading blocks of the chapter markup (`h1`, `h2` or `h3`). -/
def isHeadingBlock : Block → Bool
  | Block.h1 _ => true
  | Block.h2 _ => true
  | Block.h3 _ => true
  | _ => false

/-- Text blocks of the chapter markup: headings and paragraphs. -/
def isTextBlock : Block → Bool
  | Block.h1 _ => true
  | Block.h2 _ => true
  | Block.h3 _ => true
  | Block.para _ _ => true
  | _ => false

/-- The assembled EPUB package. -/
structure EpubBook where
  identifier : String
  title : String
  language : String
  authors : List String
  items : List EpubItem
  chapterBlocks : List Block
  toc : List (String × String × String)
  spine : List String

/-- `process_image(raw_data)` (source lines 20-36): decode the bytes via
PIL (abstracted by the `decode` oracle, which already performs the RGB
conversion and JPEG re-encode); on success the media type is
`"image/jpeg"`, on any exception the image is reported unusable. -/
def process_image (decode : List Nat → Option (List Nat)) (raw_data : List Nat) :
    Option (List Nat × String) :=
  match decode raw_data with
  | some out => some (out, "image/jpeg")
  | none => none

/-- The clip-box selection of `render_page_as_image` (source lines 40-47):
bleed box if non-empty, else trim box if non-empty, else crop box if
non-empty, else media box. -/
def chooseRect (pg : Page) : Rect :=
  if !pg.bleedbox.is_empty then pg.bleedbox
  else if !pg.trimbox.is_empty then pg.trimbox
  else if !pg.cropbox.is_empty then pg.cropbox
  else pg.mediabox

/-- `render_page_as_image(page_fitz, dpi)` (source lines 38-56): rasterise
the chosen box at the requested dpi; a rendering backend error
propagates. -/
def render_page_as_image (pg : Page) (dpi : Nat) : Except Unit (List Nat) :=
  pg.pixmap (chooseRect pg) dpi

/-- File name of the full-page image of page `page_num`:
`f"images/fullpage_{page_num:03d}.jpg"` (line 117). -/
def fpNameChars (page_num : Nat) : List Char :=
  "images/fullpage_".data ++ (pad3 page_num ++ ".jpg".data)

/-- String form of `fpNameChars`. -/
def fpName (page_num : Nat) : String :=
  ⟨fpNameChars page_num⟩

/-- Identifier of a full-page image: `f"fullpage_{counter}"` (line 118). -/
def fpUidChars (counter : Nat) : List Char :=
  "fullpage_".data ++ natChars counter

/-- String form of `fpUidChars`. -/
def fpUid (counter : Nat) : String :=
  ⟨fpUidChars counter⟩

/-- File name of an embedded image:
`f"images/embedded_{page_num:03d}_{counter:03d}.jpg"` (line 147). -/
def emNameChars (page_num counter : Nat) : List Char :=
  "images/embedded_".data ++ (pad3 page_num ++ '_' :: (pad3 counter ++ ".jpg".data))

/-- String form of `emNameChars`. -/
def emName (page_num counter : Nat) : String :=
  ⟨emNameChars page_num counter⟩

/-- Identifier of an embedded image: `f"embedded_{counter}"` (line 148). -/
def emUidChars (counter : Nat) : List Char :=
  "embedded_".data ++ natChars counter

/-- String form of `emUidChars`. -/
def emUid (counter : Nat) : String :=
  ⟨emUidChars counter⟩

/-- The stylesheet resource (lines 92-94). -/
def cssItem : EpubItem :=
  ⟨"style_css", "style/style.css", "text/css", []⟩

/-- The chapter document added after the loop (lines 96, 195); ebooklib
internals (default uid) are abstracted by a non-image identifier. -/
def chapterItem : EpubItem :=
  ⟨"chapter", "content.xhtml", "application/xhtml+xml", []⟩

/-- `epub.EpubNav()` (line 197), with ebooklib's default identity. -/
def navItem : EpubItem :=
  ⟨"nav", "nav.xhtml", "application/xhtml+xml", []⟩

/-- `epub.EpubNcx()` (line 198), with ebooklib's default identity. -/
def ncxItem : EpubItem :=
  ⟨"ncx", "toc.ncx", "application/x-dtbncx+xml", []⟩

/-- The mutable loop state of `pdf_to_epub` (lines 99-103): the chapter
markup accumulated so far, the resources added to the book so far, the
two image counters and the indent flag. -/
structure LoopState where
  is_first_para_after_heading : Bool
  embedded_image_counter : Nat
  fullpage_image_counter : Nat
  items : List EpubItem
  html : List Block

/-- Body of the embedded-image loop (source lines 131-153), acting on the
accumulator `(embedded_html, book items, embedded_image_counter)`. Every
`continue` of the source is a branch returning the accumulator
unchanged. -/
def xobjStep (decode : List Nat → Option (List Nat)) (page_num : Nat)
    (acc : List Block × List EpubItem × Nat) (xobj : XObject) :
    List Block × List EpubItem × Nat :=
  if xobj.subtypeIsImage = false then acc
  else
    match xobj.data with
    | Except.error _ => acc
    | Except.ok raw_data =>
      if raw_data = [] then acc
      else
        match process_image decode raw_data with
        | none => acc
        | some (img_data, media_type) =>
          let counter' := acc.2.2 + 1
          (acc.1 ++ [Block.inlineImg (emName page_num counter') counter'],
           acc.2.1 ++ [⟨emUid counter', emName page_num counter', media_type, img_data⟩],
           counter')

/-- The embedded-image extraction of one page (source lines 127-153):
iterate over the XObjects when the resource dictionary is present. -/
def processXObjects (decode : List Nat → Option (List Nat)) (page_num : Nat)
    (xo : Option (List XObject)) (items : List EpubItem) (counter : Nat) :
    List Block × List EpubItem × Nat :=
  match xo with
  | none => ([], items, counter)
  | some xs => xs.foldl (xobjStep decode page_num) ([], items, counter)

/-- The cleaned text of one raw paragraph: the paragraph's lines, stripped
and with empty lines removed, joined with single spaces and normalized
(source lines 162-166). -/
def combinedOf (para : List Char) : List Char :=
  cleanChineseChars (joinSpace (((splitNL para).map pyStrip).filter (fun l => l ≠ [])))

/-- Body of the paragraph loop (source lines 161-179): classify one raw
paragraph and emit its block, threading `is_first_para_after_heading`. -/
def paraStep (flag : Bool) (para : List Char) : List Block × Bool :=
  let lines := ((splitNL para).map pyStrip).filter (fun l => l ≠ [])
  if lines = [] then ([], flag)
  else
    let combined := cleanChineseChars (joinSpace lines)
    if combined.length < 150 ∧ pyIsUpper combined = true then
      (if combined.length < 80 then [Block.h2 combined] else [Block.h3 combined], true)
    else
      if flag then ([Block.para true combined], false)
      else ([Block.para false combined], false)

/-- The paragraph loop (source lines 161-179) over a list of raw
paragraphs. -/
def emitParas (flag : Bool) : List (List Char) → List Block × Bool
  | [] => ([], flag)
  | p :: ps =>
    ((paraStep flag p).1 ++ (emitParas (paraStep flag p).2 ps).1,
     (emitParas (paraStep flag p).2 ps).2)

/-- The raw paragraphs of a page's extracted text (source lines 159-160):
nothing when the stripped text is empty, else the text split on blank
lines, each piece stripped, empty pieces dropped. -/
def parasOfPage (text : List Char) : List (List Char) :=
  if pyStrip text ≠ [] then ((splitNN text).map pyStrip).filter (fun p => p ≠ []) else []

/-- The body of the page loop (source lines 105-185): add the full-page
image (the word-count threshold test is commented out in the source, so
this happens unconditionally), extract the embedded images, emit the text
blocks, then append the embedded-image blocks after the text. -/
def processPage (decode : List Nat → Option (List Nat)) (page_num : Nat)
    (st : LoopState) (pg : Page) : Except Unit LoopState :=
  let text := pg.text
  let _word_count := wordCount text
  let fullpage_image_counter := st.fullpage_image_counter + 1
  match render_page_as_image pg 300 with
  | Except.error e => Except.error e
  | Except.ok img_data =>
    let filename := fpName page_num
    let uid := fpUid fullpage_image_counter
    let items1 := st.items ++ [⟨uid, filename, "image/jpeg", img_data⟩]
    let page_html1 : List Block := [Block.fullpageImg filename page_num]
    let embRes :=
      processXObjects decode page_num pg.xobjects items1 st.embedded_image_counter
    let textRes :=
      emitParas st.is_first_para_after_heading (parasOfPage text)
    Except.ok
      { is_first_para_after_heading := textRes.2
        embedded_image_counter := embRes.2.2
        fullpage_image_counter := fullpage_image_counter
        items := embRes.2.1
        html := st.html ++ page_html1 ++ textRes.1 ++ embRes.1 }

/-- The page loop (source line 105): pages are numbered from 1; an error
raised while rendering a page aborts the whole conversion. -/
def runPages (decode : List Nat → Option (List Nat)) :
    Nat → LoopState → List Page → Except Unit LoopState
  | _, st, [] => Except.ok st
  | page_num, st, pg :: rest =>
    match processPage decode page_num st pg with
    | Except.error e => Except.error e
    | Except.ok st' => runPages decode (page_num + 1) st' rest

/-- The initial loop state (source lines 92-103): the stylesheet has been
added, the chapter markup holds the `<h1>` title, the indent flag is set
and both counters are zero. -/
def initState (title : String) : LoopState :=
  { is_first_para_after_heading := true
    embedded_image_counter := 0
    fullpage_image_counter := 0
    items := [cssItem]
    html := [Block.h1 title.data] }

/-- `pdf_to_epub` up to (but not including) `epub.write_epub` (source
lines 58-199): open the input, run the page loop, then assemble the book.
`word_threshold` is accepted but — the filter at line 114 being commented
out — never used. -/
def pdf_to_epub_core (decode : List Nat → Option (List Nat)) (input_pdf : PdfInput)
    (title : String) (author : String) (word_threshold : Nat) : Except Unit EpubBook :=
  if input_pdf.openOk = true then
    match runPages decode 1 (initState title) input_pdf.pages with
    | Except.error e => Except.error e
    | Except.ok st =>
      Except.ok
        { identifier := "pdf-" ++ input_pdf.basename
          title := title
          language := "zh"
          authors := [author]
          items := st.items ++ [chapterItem, navItem, ncxItem]
          chapterBlocks := st.html
          toc := [("content.xhtml", "Main Content", "content")]
          spine := ["nav", "chapter"]}
  else Except.error ()

/-- `pdf_to_epub` including its single file write (source line 201):
the pair of the computation's outcome and the list of files written, each
write pairing the output path with the serialized book. `epub.write_epub`
is reached only after the whole loop has finished. -/
def pdf_to_epub (decode : List Nat → Option (List Nat)) (input_pdf : PdfInput)
    (output_epub : String) (title : String) (author : String) (word_threshold : Nat) :
    Except Unit EpubBook × List (String × EpubBook) :=
  match pdf_to_epub_core decode input_pdf title author word_threshold with
  | Except.error e => (Except.error e, [])
  | Except.ok book => (Except.ok book, [(output_epub, book)])

/-! ## Properties of the decimal renderings and the generated names -/

theorem decDigit_toNat {n : Nat} (h : n < 10) : (decDigit n).toNat - 0x30 = n := by
  interval_cases n <;> rfl

theorem decDigit_isDigit {n : Nat} (h : n < 10) : pyCharIsDigit (decDigit n) = true := by
  interval_cases n <;> rfl

theorem natCharsAux_digits :
    ∀ fuel n c, c ∈ natCharsAux fuel n → pyCharIsDigit c = true
  | 0, n, c, h => by simp [natCharsAux] at h
  | fuel + 1, n, c, h => by
    rw [natCharsAux] at h
    by_cases h10 : n < 10
    · rw [if_pos h10] at h
      simp only [List.mem_singleton] at h
      subst h
      exact decDigit_isDigit h10
    · rw [if_neg h10] at h
      rcases List.mem_append.1 h with h1 | h2
      · exact natCharsAux_digits fuel (n / 10) c h1
      · simp only [List.mem_singleton] at h2
        subst h2
        exact decDigit_isDigit (Nat.mod_lt _ (by omega))

theorem natCharsAux_value :
    ∀ fuel n, n < 10 ^ fuel →
      ∀ acc, (natCharsAux fuel n).foldl decStep acc =
        acc * 10 ^ (natCharsAux fuel n).length + n
  | 0, n, h, acc => by
    simp only [natCharsAux, List.foldl_nil, List.length_nil, pow_zero]
    omega
  | fuel + 1, n, h, acc => by
    rw [natCharsAux]
    by_cases h10 : n < 10
    · rw [if_pos h10]
      simp only [List.foldl_cons, List.foldl_nil, List.length_singleton, pow_one, decStep,
        decDigit_toNat h10]
    · rw [if_neg h10]
      rw [List.foldl_append]
      have hdiv : n / 10 < 10 ^ fuel := by
        rw [Nat.div_lt_iff_lt_mul (by omega)]
        calc n < 10 ^ (fuel + 1) := h
          _ = 10 ^ fuel * 10 := by rw [Nat.pow_succ]
      rw [natCharsAux_value fuel (n / 10) hdiv acc]
      simp only [List.foldl_cons, List.foldl_nil, decStep,
        decDigit_toNat (Nat.mod_lt n (by omega)), List.length_append,
        List.length_singleton]
      have hp : 10 ^ ((natCharsAux fuel (n / 10)).length + 1) =
          10 ^ (natCharsAux fuel (n / 10)).length * 10 := Nat.pow_succ ..
      rw [hp]
      have hm := Nat.div_add_mod n 10
      set L := 10 ^ (natCharsAux fuel (n / 10)).length
      ring_nf
      omega

theorem charsToNat_natChars (n : Nat) : charsToNat (natChars n) = n := by
  have h : n < 10 ^ (n + 1) :=
    lt_of_lt_of_le (Nat.lt_pow_self (by omega) n)
      (Nat.pow_le_pow_right (by omega) (by omega))
  unfold charsToNat natChars
  rw [natCharsAux_value (n + 1) n h 0]
  simp

theorem natChars_ne_nil (n : Nat) : natChars n ≠ [] := by
  unfold natChars natCharsAux
  split <;> simp

theorem natChars_digits {n : Nat} {c : Char} (h : c ∈ natChars n) :
    pyCharIsDigit c = true :=
  natCharsAux_digits (n + 1) n c h

theorem pad3_digits {n : Nat} {c : Char} (h : c ∈ pad3 n) : pyCharIsDigit c = true := by
  unfold pad3 at h
  rcases List.mem_append.1 h with h | h
  · rw [List.eq_of_mem_replicate h]
    rfl
  · exact natChars_digits h

theorem foldl_decStep_zeros : ∀ k, (List.replicate k '0').foldl decStep 0 = 0
  | 0 => rfl
  | k + 1 => by
    rw [List.replicate_succ, List.foldl_cons]
    have hz : decStep 0 '0' = 0 := rfl
    rw [hz, foldl_decStep_zeros k]

theorem charsToNat_pad3 (n : Nat) : charsToNat (pad3 n) = n := by
  unfold charsToNat pad3
  rw [List.foldl_append, foldl_decStep_zeros]
  exact charsToNat_natChars n

theorem pad3_ne_nil (n : Nat) : pad3 n ≠ [] := by
  unfold pad3
  intro h
  rcases List.append_eq_nil.1 h with ⟨-, h2⟩
  exact natChars_ne_nil n h2

theorem digit_ne_dot {c : Char} (h : pyCharIsDigit c = true) : (c != '.') = true := by
  rw [bne_iff_ne]
  rintro rfl
  revert h
  decide

theorem digit_ne_underscore {c : Char} (h : pyCharIsDigit c = true) : (c != '_') = true := by
  rw [bne_iff_ne]
  rintro rfl
  revert h
  decide

theorem takeWhileDropWhileAppend {p : Char → Bool} :
    ∀ (xs : List Char) (y : Char) (ys : List Char),
      (∀ x ∈ xs, p x = true) → p y = false →
      (xs ++ y :: ys).takeWhile p = xs ∧ (xs ++ y :: ys).dropWhile p = y :: ys
  | [], y, ys, _, hy => by
    simp [List.takeWhile_cons, List.dropWhile_cons, hy]
  | x :: xs, y, ys, hall, hy => by
    have hx := hall x (by simp)
    have ih := takeWhileDropWhileAppend xs y ys (fun a ha => hall a (by simp [ha])) hy
    simp [List.takeWhile_cons, List.dropWhile_cons, hx, ih.1, ih.2]

/-! ## Parsers for the generated identifiers and file names

These are proof devices: partial inverses of the name constructors, used
to extract the image resources (and their indices) from a finished
package in order. -/

/-- Parse `tag` followed by a non-empty run of digits. -/
def parseTagged (tag : List Char) (l : List Char) : Option Nat :=
  if l.take tag.length = tag ∧ l.drop tag.length ≠ [] ∧
      (l.drop tag.length).all pyCharIsDigit = true
  then some (charsToNat (l.drop tag.length)) else none

/-- Parse `tag`, a non-empty run of digits, then `".jpg"`. -/
def parseNameTagged (tag : List Char) (l : List Char) : Option Nat :=
  if l.take tag.length = tag then
    (let r := l.drop tag.length
     let a := r.takeWhile (fun c => c != '.')
     if a ≠ [] ∧ a.all pyCharIsDigit = true ∧ r = a ++ ".jpg".data
     then some (charsToNat a) else none)
  else none

/-- Parse a full-page image identifier `fullpage_<n>`. -/
def parseFpUid (s : String) : Option Nat :=
  parseTagged "fullpage_".data s.data

/-- Parse an embedded image identifier `embedded_<n>`. -/
def parseEmUid (s : String) : Option Nat :=
  parseTagged "embedded_".data s.data

/-- Parse a full-page image file name `images/fullpage_<page>.jpg`,
returning the page number. -/
def parseFpName (s : String) : Option Nat :=
  parseNameTagged "images/fullpage_".data s.data

/-- Parse an embedded image file name `images/embedded_<page>_<n>.jpg`,
returning the global counter value `<n>`. -/
def parseEmName (s : String) : Option Nat :=
  (let tag := "images/embedded_".data
   if s.data.take tag.length = tag then
     (let r := s.data.drop tag.length
      let a := r.takeWhile (fun c => c != '_')
      let b := (r.drop (a.length + 1)).takeWhile (fun c => c != '.')
      if a ≠ [] ∧ a.all pyCharIsDigit = true ∧ b ≠ [] ∧ b.all pyCharIsDigit = true ∧
          r = a ++ '_' :: b ++ ".jpg".data
      then some (charsToNat b) else none)
   else none)

theorem parseTagged_self (tag : List Char) (n : Nat) :
    parseTagged tag (tag ++ natChars n) = some n := by
  unfold parseTagged
  rw [List.take_left, List.drop_left]
  rw [if_pos ⟨rfl, natChars_ne_nil n, List.all_eq_true.2 fun c hc => natChars_digits hc⟩]
  rw [charsToNat_natChars]

theorem parseTagged_mismatch {tag1 tag2 : List Char} (rest : List Char)
    (hlen : tag1.length = tag2.length) (hne : tag2 ≠ tag1) :
    parseTagged tag1 (tag2 ++ rest) = none := by
  unfold parseTagged
  rw [hlen, List.take_left]
  simp [hne]

theorem parseFpUid_fpUid (n : Nat) : parseFpUid (fpUid n) = some n :=
  parseTagged_self _ n

theorem parseEmUid_emUid (n : Nat) : parseEmUid (emUid n) = some n :=
  parseTagged_self _ n

theorem parseFpUid_emUid (n : Nat) : parseFpUid (emUid n) = none :=
  parseTagged_mismatch _ (by decide) (by decide)

theorem parseEmUid_fpUid (n : Nat) : parseEmUid (fpUid n) = none :=
  parseTagged_mismatch _ (by decide) (by decide)

theorem parseNameTagged_self (tag : List Char) (n : Nat) :
    parseNameTagged tag (tag ++ (pad3 n ++ ".jpg".data)) = some n := by
  unfold parseNameTagged
  rw [List.take_left, List.drop_left]
  have hjpg : ".jpg".data = '.' :: "jpg".data := rfl
  rw [hjpg]
  have htw := takeWhileDropWhileAppend (p := fun c => c != '.') (pad3 n) '.' "jpg".data
    (fun x hx => digit_ne_dot (pad3_digits hx)) (by decide)
  have hall : (pad3 n).all pyCharIsDigit = true :=
    List.all_eq_true.2 fun c hc => pad3_digits hc
  simp [htw.1, pad3_ne_nil n, hall, charsToNat_pad3]

theorem parseFpName_fpName (p : Nat) : parseFpName (fpName p) = some p :=
  parseNameTagged_self "images/fullpage_".data p

theorem dataMk (l : List Char) : (String.mk l).data = l := rfl

theorem parseNameTagged_mismatch {tag1 tag2 : List Char} (rest : List Char)
    (hlen : tag1.length = tag2.length) (hne : tag2 ≠ tag1) :
    parseNameTagged tag1 (tag2 ++ rest) = none := by
  unfold parseNameTagged
  rw [hlen, List.take_left]
  simp [hne]

theorem parseFpName_emName (p j : Nat) : parseFpName (emName p j) = none :=
  parseNameTagged_mismatch _ (by decide) (by decide)

theorem parseEmName_emName (p j : Nat) : parseEmName (emName p j) = some j := by
  unfold parseEmName emName emNameChars
  simp only [dataMk]
  rw [List.take_left, List.drop_left, if_pos rfl]
  have ha := takeWhileDropWhileAppend (p := fun c => c != '_')
    (pad3 p) '_' (pad3 j ++ ".jpg".data)
    (fun x hx => digit_ne_underscore (pad3_digits hx)) (by decide)
  have hsplit : pad3 p ++ '_' :: (pad3 j ++ ".jpg".data) =
      (pad3 p ++ ['_']) ++ (pad3 j ++ ".jpg".data) := by simp
  have hlen1 : (pad3 p ++ ['_']).length = (pad3 p).length + 1 := by simp
  have hdrop : (pad3 p ++ '_' :: (pad3 j ++ ".jpg".data)).drop ((pad3 p).length + 1) =
      pad3 j ++ ".jpg".data := by
    rw [hsplit, ← hlen1, List.drop_left]
  have hjpg : ".jpg".data = '.' :: "jpg".data := rfl
  have hb := takeWhileDropWhileAppend (p := fun c => c != '.') (pad3 j) '.' "jpg".data
    (fun x hx => digit_ne_dot (pad3_digits hx)) (by decide)
  have hallp : (pad3 p).all pyCharIsDigit = true :=
    List.all_eq_true.2 fun c hc => pad3_digits hc
  have hallj : (pad3 j).all pyCharIsDigit = true :=
    List.all_eq_true.2 fun c hc => pad3_digits hc
  simp only [ha.1, hdrop, hjpg, hb.1]
  rw [if_pos ⟨pad3_ne_nil p, hallp, pad3_ne_nil j, hallj, by simp⟩, charsToNat_pad3]

theorem parseEmName_fpName (p : Nat) : parseEmName (fpName p) = none := by
  unfold parseEmName fpName fpNameChars
  have hlen : ("images/embedded_".data).length = ("images/fullpage_".data).length := by
    decide
  simp only [dataMk, hlen, List.take_left]
  rw [if_neg (by decide)]

/-! ## The package-level invariant of the page loop -/

/-- The conditions under which the embedded-image loop (source lines
131-151) adds one image to the book: subtype `/Image`, readable non-empty
raw data, successful decode. -/
def decodedOk (decode : List Nat → Option (List Nat)) (x : XObject) : Bool :=
  x.subtypeIsImage &&
    (match x.data with
     | Except.error _ => false
     | Except.ok raw => !(decide (raw = [])) && (process_image decode raw).isSome)

/-- Number of embedded images of one page that are added. -/
def pageSuccessCount (decode : List Nat → Option (List Nat)) (pg : Page) : Nat :=
  match pg.xobjects with
  | none => 0
  | some xs => (xs.filter (decodedOk decode)).length

/-- Number of embedded images of the whole document that are added. -/
def totalSuccessCount (decode : List Nat → Option (List Nat)) (pages : List Page) : Nat :=
  (pages.map (pageSuccessCount decode)).sum

/-- The full-page image file names appearing in a list of resources, in
order. -/
def fullpageNames (items : List EpubItem) : List String :=
  (items.map (fun it => it.file_name)).filter (fun u => (parseFpName u).isSome)

/-- The embedded-image identifiers appearing in a list of resources, in
order. -/
def embeddedUids (items : List EpubItem) : List String :=
  (items.map (fun it => it.uid)).filter (fun u => (parseEmUid u).isSome)

/-- Invariant of the accumulated resource list after `k` pages and `e`
successfully decoded embedded images. -/
def ItemsInv (items : List EpubItem) (k e : Nat) : Prop :=
  items.filterMap (fun it => parseFpUid it.uid) = List.range' 1 k ∧
  items.filterMap (fun it => parseEmUid it.uid) = List.range' 1 e ∧
  items.filterMap (fun it => parseFpName it.file_name) = List.range' 1 k ∧
  items.filterMap (fun it => parseEmName it.file_name) = List.range' 1 e ∧
  fullpageNames items = (List.range' 1 k).map fpName ∧
  embeddedUids items = (List.range' 1 e).map emUid ∧
  ∀ it ∈ items, it.media_type = "image/jpeg" →
    ((∃ i, it.uid = fpUid i ∧ it.file_name = fpName i) ∨
     (∃ j p, it.uid = emUid j ∧ it.file_name = emName p j))

theorem range1_concat (k : Nat) : List.range' 1 (k + 1) = List.range' 1 k ++ [k + 1] := by
  rw [List.range'_concat]
  simp [Nat.add_comm]

theorem initial_items_inv : ItemsInv [cssItem] 0 0 := by
  refine ⟨by decide, by decide, by decide, by decide, by decide, by decide, ?_⟩
  intro it hit hmt
  simp only [List.mem_singleton] at hit
  subst hit
  exact absurd hmt (by decide)

theorem items_inv_add_fp {items : List EpubItem} {k e : Nat} (h : ItemsInv items k e)
    (img : List Nat) :
    ItemsInv (items ++ [⟨fpUid (k + 1), fpName (k + 1), "image/jpeg", img⟩]) (k + 1) e := by
  obtain ⟨h1, h2, h3, h4, h5, h6, h7⟩ := h
  refine ⟨?_, ?_, ?_, ?_, ?_, ?_, ?_⟩
  · rw [List.filterMap_append, h1, range1_concat]
    simp [parseFpUid_fpUid]
  · rw [List.filterMap_append, h2]
    simp [parseEmUid_fpUid]
  · rw [List.filterMap_append, h3, range1_concat]
    simp [parseFpName_fpName]
  · rw [List.filterMap_append, h4]
    simp [parseEmName_fpName]
  · unfold fullpageNames at h5 ⊢
    rw [List.map_append, List.filter_append, h5, range1_concat]
    simp [parseFpName_fpName]
  · unfold embeddedUids at h6 ⊢
    rw [List.map_append, List.filter_append, h6]
    simp [parseEmUid_fpUid]
  · intro it hit hmt
    rcases List.mem_append.1 hit with hmem | hmem
    · exact h7 it hmem hmt
    · simp only [List.mem_singleton] at hmem
      subst hmem
      exact Or.inl ⟨k + 1, rfl, rfl⟩

theorem items_inv_add_em {items : List EpubItem} {k e : Nat} (h : ItemsInv items k e)
    (p : Nat) (img : List Nat) :
    ItemsInv (items ++ [⟨emUid (e + 1), emName p (e + 1), "image/jpeg", img⟩]) k (e + 1) := by
  obtain ⟨h1, h2, h3, h4, h5, h6, h7⟩ := h
  refine ⟨?_, ?_, ?_, ?_, ?_, ?_, ?_⟩
  · rw [List.filterMap_append, h1]
    simp [parseFpUid_emUid]
  · rw [List.filterMap_append, h2, range1_concat]
    simp [parseEmUid_emUid]
  · rw [List.filterMap_append, h3]
    simp [parseFpName_emName]
  · rw [List.filterMap_append, h4, range1_concat]
    simp [parseEmName_emName]
  · unfold fullpageNames at h5 ⊢
    rw [List.map_append, List.filter_append, h5]
    simp [parseFpName_emName]
  · unfold embeddedUids at h6 ⊢
    rw [List.map_append, List.filter_append, h6, range1_concat]
    simp [parseEmUid_emUid]
  · intro it hit hmt
    rcases List.mem_append.1 hit with hmem | hmem
    · exact h7 it hmem hmt
    · simp only [List.mem_singleton] at hmem
      subst hmem
      exact Or.inr ⟨e + 1, p, rfl, rfl⟩

theorem process_image_jpeg {decode : List Nat → Option (List Nat)} {raw : List Nat}
    {pr : List Nat × String} (h : process_image decode raw = some pr) :
    pr.2 = "image/jpeg" := by
  unfold process_image at h
  cases hd : decode raw <;> rw [hd] at h
  · exact absurd h (by simp)
  · injection h with h1
    rw [← h1]

theorem xobjStep_skip {decode : List Nat → Option (List Nat)} {pn : Nat} {x : XObject}
    (h : decodedOk decode x = false) (acc : List Block × List EpubItem × Nat) :
    xobjStep decode pn acc x = acc := by
  obtain ⟨sub, data⟩ := x
  unfold decodedOk at h
  cases sub
  · rfl
  · cases data with
    | error e => rfl
    | ok raw =>
      simp only [Bool.true_and] at h
      by_cases hr : raw = []
      · subst hr
        rfl
      · have hni : process_image decode raw = none := by
          rcases hp : process_image decode raw with _ | pr
          · rfl
          · rw [decide_eq_false hr] at h
            simp [hp] at h
        simp [xobjStep, hr, hni]

theorem xobjStep_add {decode : List Nat → Option (List Nat)} {pn : Nat} {x : XObject}
    (h : decodedOk decode x = true) (acc : List Block × List EpubItem × Nat) :
    ∃ img, xobjStep decode pn acc x =
      (acc.1 ++ [Block.inlineImg (emName pn (acc.2.2 + 1)) (acc.2.2 + 1)],
       acc.2.1 ++ [⟨emUid (acc.2.2 + 1), emName pn (acc.2.2 + 1), "image/jpeg", img⟩],
       acc.2.2 + 1) := by
  obtain ⟨sub, data⟩ := x
  unfold decodedOk at h
  cases sub
  · simp at h
  · cases data with
    | error e => simp at h
    | ok raw =>
      simp only [Bool.true_and, Bool.and_eq_true, Bool.not_eq_true', decide_eq_false_iff_not,
        Option.isSome_iff_exists] at h
      obtain ⟨hraw, pr, hpr⟩ := h
      have hmt := process_image_jpeg hpr
      obtain ⟨out, mt⟩ := pr
      simp only at hmt
      subst hmt
      refine ⟨out, ?_⟩
      simp [xobjStep, hraw, hpr]

theorem foldl_xobj {decode : List Nat → Option (List Nat)} {pn : Nat} :
    ∀ (xs : List XObject) (blocks : List Block) (items : List EpubItem) (k e : Nat),
      ItemsInv items k e →
      (xs.foldl (xobjStep decode pn) (blocks, items, e)).2.2 =
        e + (xs.filter (decodedOk decode)).length ∧
      ItemsInv (xs.foldl (xobjStep decode pn) (blocks, items, e)).2.1 k
        (e + (xs.filter (decodedOk decode)).length) ∧
      ∃ nb, (xs.foldl (xobjStep decode pn) (blocks, items, e)).1 = blocks ++ nb ∧
        ∀ b ∈ nb, ∃ fn j, b = Block.inlineImg fn j
  | [], blocks, items, k, e, hinv => by
    refine ⟨by simp, by simpa using hinv, [], by simp, by simp⟩
  | x :: xs, blocks, items, k, e, hinv => by
    by_cases hx : decodedOk decode x = true
    · obtain ⟨img, hstep⟩ := @xobjStep_add decode pn x hx (blocks, items, e)
      simp only [List.foldl_cons, hstep]
      have hinv' := items_inv_add_em hinv pn img
      obtain ⟨hc, hi, nb, hnb, hnbAll⟩ :=
        foldl_xobj xs (blocks ++ [Block.inlineImg (emName pn (e + 1)) (e + 1)])
          (items ++ [⟨emUid (e + 1), emName pn (e + 1), "image/jpeg", img⟩]) k (e + 1) hinv'
      have hfil : ((x :: xs).filter (decodedOk decode)).length =
          (xs.filter (decodedOk decode)).length + 1 := by
        simp [List.filter_cons, hx]
      refine ⟨?_, ?_, ?_⟩
      · rw [hc, hfil]
        omega
      · rw [hfil]
        have : e + ((xs.filter (decodedOk decode)).length + 1) =
            e + 1 + (xs.filter (decodedOk decode)).length := by omega
        rw [this]
        exact hi
      · refine ⟨Block.inlineImg (emName pn (e + 1)) (e + 1) :: nb, ?_, ?_⟩
        · rw [hnb]
          simp
        · intro b hb
          rcases List.mem_cons.1 hb with hb | hb
          · exact ⟨_, _, hb⟩
          · exact hnbAll b hb
    · have hx' : decodedOk decode x = false := by
        revert hx
        cases decodedOk decode x <;> simp
      rw [List.foldl_cons, xobjStep_skip hx' (blocks, items, e)]
      have hfil : ((x :: xs).filter (decodedOk decode)).length =
          (xs.filter (decodedOk decode)).length := by
        simp [List.filter_cons, hx']
      rw [hfil]
      exact foldl_xobj xs blocks items k e hinv

theorem processXObjects_spec {decode : List Nat → Option (List Nat)} {pn : Nat}
    (xo : Option (List XObject)) (items : List EpubItem) {k e : Nat}
    (hinv : ItemsInv items k e) :
    (processXObjects decode pn xo items e).2.2 =
      e + (match xo with | none => 0 | some xs => (xs.filter (decodedOk decode)).length) ∧
    ItemsInv (processXObjects decode pn xo items e).2.1 k
      (processXObjects decode pn xo items e).2.2 ∧
    ∀ b ∈ (processXObjects decode pn xo items e).1, ∃ fn j, b = Block.inlineImg fn j := by
  cases xo with
  | none =>
    exact ⟨by simp [processXObjects], by simpa [processXObjects] using hinv, by
      simp [processXObjects]⟩
  | some xs =>
    obtain ⟨hc, hi, nb, hnb, hnbAll⟩ := foldl_xobj xs [] items k e hinv
    have heq : processXObjects decode pn (some xs) items e =
        xs.foldl (xobjStep decode pn) ([], items, e) := rfl
    rw [heq]
    refine ⟨hc, ?_, ?_⟩
    · rw [hc]
      exact hi
    · intro b hb
      rw [hnb] at hb
      simp only [List.nil_append] at hb
      exact hnbAll b hb

theorem paraStep_cases (flag : Bool) (para : List Char) :
    paraStep flag para = ([], flag) ∨
    (∃ s, paraStep flag para = ([Block.h2 s], true)) ∨
    (∃ s, paraStep flag para = ([Block.h3 s], true)) ∨
    (∃ s, paraStep flag para = ([Block.para flag s], false)) := by
  unfold paraStep
  by_cases h1 : ((splitNL para).map pyStrip).filter (fun l => l ≠ []) = []
  · rw [if_pos h1]
    exact Or.inl rfl
  · rw [if_neg h1]
    by_cases h2 : (cleanChineseChars (joinSpace (((splitNL para).map pyStrip).filter
        (fun l => l ≠ [])))).length < 150 ∧
        pyIsUpper (cleanChineseChars (joinSpace (((splitNL para).map pyStrip).filter
          (fun l => l ≠ [])))) = true
    · rw [if_pos h2]
      by_cases h3 : (cleanChineseChars (joinSpace (((splitNL para).map pyStrip).filter
          (fun l => l ≠ [])))).length < 80
      · rw [if_pos h3]
        exact Or.inr (Or.inl ⟨_, rfl⟩)
      · rw [if_neg h3]
        exact Or.inr (Or.inr (Or.inl ⟨_, rfl⟩))
    · rw [if_neg h2]
      refine Or.inr (Or.inr (Or.inr ⟨cleanChineseChars (joinSpace (((splitNL para).map
        pyStrip).filter (fun l => l ≠ []))), ?_⟩))
      cases flag
      · rfl
      · rfl

theorem emitParas_text (ps : List (List Char)) :
    ∀ (flag : Bool) (b : Block), b ∈ (emitParas flag ps).1 → isTextBlock b = true := by
  induction ps with
  | nil => simp [emitParas]
  | cons p ps ih =>
    intro flag b hb
    rw [emitParas] at hb
    rcases paraStep_cases flag p with h | ⟨s, h⟩ | ⟨s, h⟩ | ⟨s, h⟩ <;>
      rw [h] at hb <;> simp only [List.nil_append, List.cons_append, List.mem_cons,
        List.mem_append, List.not_mem_nil, or_false, false_or] at hb
    · exact ih flag b hb
    · rcases hb with hb | hb
      · subst hb
        rfl
      · exact ih true b hb
    · rcases hb with hb | hb
      · subst hb
        rfl
      · exact ih true b hb
    · rcases hb with hb | hb
      · subst hb
        rfl
      · exact ih false b hb

theorem processPage_spec {decode : List Nat → Option (List Nat)} {k e : Nat}
    {st : LoopState} {pg : Page} {st' : LoopState}
    (hinv : ItemsInv st.items k e) (hk : st.fullpage_image_counter = k)
    (he : st.embedded_image_counter = e)
    (h : processPage decode (k + 1) st pg = Except.ok st') :
    st'.fullpage_image_counter = k + 1 ∧
    st'.embedded_image_counter = e + pageSuccessCount decode pg ∧
    ItemsInv st'.items (k + 1) (e + pageSuccessCount decode pg) ∧
    st'.is_first_para_after_heading =
      (emitParas st.is_first_para_after_heading (parasOfPage pg.text)).2 ∧
    ∃ eb, st'.html = st.html ++ Block.fullpageImg (fpName (k + 1)) (k + 1) ::
        ((emitParas st.is_first_para_after_heading (parasOfPage pg.text)).1 ++ eb) ∧
      ∀ b ∈ eb, ∃ fn j, b = Block.inlineImg fn j := by
  rw [processPage] at h
  split at h
  · exact absurd h (by simp)
  next img hrend =>
    rw [hk, he] at h
    injection h with h
    subst h
    have hinv1 := items_inv_add_fp hinv img
    obtain ⟨hc, hi, hblocks⟩ := @processXObjects_spec decode (k + 1)
      pg.xobjects
      (st.items ++ [⟨fpUid (k + 1), fpName (k + 1), "image/jpeg", img⟩]) _ _ hinv1
    refine ⟨rfl, ?_, ?_, rfl, ?_⟩
    · exact hc
    · rw [show e + pageSuccessCount decode pg =
        e + (match pg.xobjects with
             | none => 0
             | some xs => (xs.filter (decodedOk decode)).length) from rfl, ← hc]
      exact hi
    · refine ⟨(processXObjects decode (k + 1) pg.xobjects
        (st.items ++ [⟨fpUid (k + 1), fpName (k + 1), "image/jpeg", img⟩])
        st.embedded_image_counter).1, ?_, ?_⟩
      · rw [he]
        simp
      · rw [he]
        exact hblocks

theorem totalSuccessCount_cons (decode : List Nat → Option (List Nat)) (pg : Page)
    (rest : List Page) :
    totalSuccessCount decode (pg :: rest) =
      pageSuccessCount decode pg + totalSuccessCount decode rest := by
  simp [totalSuccessCount]

theorem runPages_master {decode : List Nat → Option (List Nat)} :
    ∀ (pages : List Page) (k e : Nat) (st st' : LoopState),
      ItemsInv st.items k e → st.fullpage_image_counter = k →
      st.embedded_image_counter = e →
      runPages decode (k + 1) st pages = Except.ok st' →
      st'.fullpage_image_counter = k + pages.length ∧
      st'.embedded_image_counter = e + totalSuccessCount decode pages ∧
      ItemsInv st'.items (k + pages.length) (e + totalSuccessCount decode pages) ∧
      ∃ groups : List (List Block), st'.html = st.html ++ groups.join ∧
        groups.length = pages.length ∧
        ∀ i (hi : i < groups.length), ∃ tb eb,
          groups.get ⟨i, hi⟩ = Block.fullpageImg (fpName (k + 1 + i)) (k + 1 + i) ::
            (tb ++ eb) ∧
          (∀ b ∈ tb, isTextBlock b = true) ∧
          (∀ b ∈ eb, ∃ fn j, b = Block.inlineImg fn j)
  | [], k, e, st, st', hinv, hk, he, h => by
    rw [runPages] at h
    injection h with h
    subst h
    refine ⟨by simpa using hk, by simpa [totalSuccessCount] using he,
      by simpa [totalSuccessCount] using hinv, [], by simp, rfl, ?_⟩
    intro i hi
    simp at hi
  | pg :: rest, k, e, st, st', hinv, hk, he, h => by
    rw [runPages] at h
    split at h
    · exact absurd h (by simp)
    next st1 hstep =>
      obtain ⟨hfp1, hec1, hinv1, -, eb0, hhtml1, heb0⟩ := processPage_spec hinv hk he hstep
      obtain ⟨hfp2, hec2, hinv2, groups1, hhtml2, hlen2, hidx2⟩ :=
        runPages_master rest (k + 1) (e + pageSuccessCount decode pg) st1 st'
          hinv1 hfp1 hec1 h
      have hcnt : e + pageSuccessCount decode pg + totalSuccessCount decode rest =
          e + totalSuccessCount decode (pg :: rest) := by
        rw [totalSuccessCount_cons]
        omega
      have hlen : k + 1 + rest.length = k + (pg :: rest).length := by
        simp only [List.length_cons]
        omega
      refine ⟨by rw [hfp2, hlen], by rw [hec2, hcnt], by rw [← hlen, ← hcnt]; exact hinv2, ?_⟩
      refine ⟨(Block.fullpageImg (fpName (k + 1)) (k + 1) ::
        ((emitParas st.is_first_para_after_heading (parasOfPage pg.text)).1 ++ eb0)) ::
        groups1, ?_, ?_, ?_⟩
      · rw [hhtml2, hhtml1]
        simp
      · simp [hlen2]
      · intro i hi
        match i with
        | 0 =>
          refine ⟨(emitParas st.is_first_para_after_heading (parasOfPage pg.text)).1,
            eb0, ?_, ?_, heb0⟩
          · simp
          · intro b hb
            exact emitParas_text _ _ b hb
        | Nat.succ i0 =>
          simp only [List.length_cons, Nat.succ_lt_succ_iff] at hi
          obtain ⟨tb, eb, hg, htb, heb⟩ := hidx2 i0 (by rw [hlen2] at hi ⊢; exact hi)
          refine ⟨tb, eb, ?_, htb, heb⟩
          have harith : k + 1 + (i0 + 1) = k + 1 + 1 + i0 := by omega
          simp only [List.get_cons_succ]
          rw [harith]
          exact hg

theorem items_inv_extend {items : List EpubItem} {k e : Nat} (h : ItemsInv items k e) :
    ItemsInv (items ++ [chapterItem, navItem, ncxItem]) k e := by
  obtain ⟨h1, h2, h3, h4, h5, h6, h7⟩ := h
  have e1 : List.filterMap (fun it => parseFpUid it.uid)
      [chapterItem, navItem, ncxItem] = [] := by decide
  have e2 : List.filterMap (fun it => parseEmUid it.uid)
      [chapterItem, navItem, ncxItem] = [] := by decide
  have e3 : List.filterMap (fun it => parseFpName it.file_name)
      [chapterItem, navItem, ncxItem] = [] := by decide
  have e4 : List.filterMap (fun it => parseEmName it.file_name)
      [chapterItem, navItem, ncxItem] = [] := by decide
  have e5 : ([chapterItem, navItem, ncxItem].map (fun it => it.file_name)).filter
      (fun u => (parseFpName u).isSome) = [] := by decide
  have e6 : ([chapterItem, navItem, ncxItem].map (fun it => it.uid)).filter
      (fun u => (parseEmUid u).isSome) = [] := by decide
  refine ⟨?_, ?_, ?_, ?_, ?_, ?_, ?_⟩
  · rw [List.filterMap_append, e1, List.append_nil, h1]
  · rw [List.filterMap_append, e2, List.append_nil, h2]
  · rw [List.filterMap_append, e3, List.append_nil, h3]
  · rw [List.filterMap_append, e4, List.append_nil, h4]
  · unfold fullpageNames at h5 ⊢
    rw [List.map_append, List.filter_append, e5, List.append_nil, h5]
  · unfold embeddedUids at h6 ⊢
    rw [List.map_append, List.filter_append, e6, List.append_nil, h6]
  · intro it hit hmt
    rcases List.mem_append.1 hit with hmem | hmem
    · exact h7 it hmem hmt
    · exfalso
      simp only [List.mem_cons, List.not_mem_nil, or_false] at hmem
      rcases hmem with h | h | h
      · rw [h] at hmt
        exact absurd hmt (by decide)
      · rw [h] at hmt
        exact absurd hmt (by decide)
      · rw [h] at hmt
        exact absurd hmt (by decide)

theorem core_ok_inv {decode : List Nat → Option (List Nat)} {inp : PdfInput}
    {title author : String} {th : Nat} {book : EpubBook}
    (h : pdf_to_epub_core decode inp title author th = Except.ok book) :
    ItemsInv book.items inp.pages.length (totalSuccessCount decode inp.pages) ∧
    ∃ groups : List (List Block),
      book.chapterBlocks = Block.h1 title.data :: groups.join ∧
      groups.length = inp.pages.length ∧
      ∀ i (hi : i < groups.length), ∃ tb eb,
        groups.get ⟨i, hi⟩ = Block.fullpageImg (fpName (1 + i)) (1 + i) :: (tb ++ eb) ∧
        (∀ b ∈ tb, isTextBlock b = true) ∧
        (∀ b ∈ eb, ∃ fn j, b = Block.inlineImg fn j) := by
  unfold pdf_to_epub_core at h
  split at h
  case isFalse => exact absurd h (by simp)
  case isTrue hopen =>
    split at h
    · exact absurd h (by simp)
    next st heq =>
      injection h with h
      subst h
      have heq1 : runPages decode (0 + 1) (initState title) inp.pages = Except.ok st := by
        simpa using heq
      obtain ⟨hfp, hec, hinv, groups, hhtml, hlen, hidx⟩ :=
        runPages_master inp.pages 0 0 (initState title) st initial_items_inv rfl rfl heq1
      constructor
      · simp only [Nat.zero_add] at hinv
        exact items_inv_extend hinv
      · refine ⟨groups, ?_, hlen, ?_⟩
        · show st.html = _
          rw [hhtml]
          rfl
        · intro i hi
          obtain ⟨tb, eb, hg, htb, heb⟩ := hidx i hi
          exact ⟨tb, eb, by simpa using hg, htb, heb⟩

/-! ## Claim C1: one full-page image per page -/

/-- C1: for every input document with N pages, a successful conversion adds
exactly N full-page image resources, one per page, in page order (their
file names are `images/fullpage_001.jpg` … `images/fullpage_N.jpg`, their
identifiers `fullpage_1` … `fullpage_N`), and this holds regardless of the
word-count threshold argument, which is accepted but never applied. -/
theorem c1_fullpage_images (decode : List Nat → Option (List Nat)) (inp : PdfInput)
    (title author : String) (th : Nat) (book : EpubBook)
    (h : pdf_to_epub_core decode inp title author th = Except.ok book) :
    fullpageNames book.items = (List.range' 1 inp.pages.length).map fpName ∧
    book.items.filterMap (fun it => parseFpName it.file_name) =
      List.range' 1 inp.pages.length ∧
    book.items.filterMap (fun it => parseFpUid it.uid) =
      List.range' 1 inp.pages.length ∧
    ∀ th2 : Nat, pdf_to_epub_core decode inp title author th2 =
      pdf_to_epub_core decode inp title author th := by
  obtain ⟨hinv, -⟩ := core_ok_inv h
  exact ⟨hinv.2.2.2.2.1, hinv.2.2.1, hinv.1, fun th2 => rfl⟩

/-- A one-page document whose page has empty text, no resource dictionary
and an always-succeeding rasteriser. -/
def trivialPage : Page :=
  { text := []
    xobjects := none
    bleedbox := ⟨false, 0, 0, 10, 10⟩
    trimbox := ⟨false, 0, 0, 10, 10⟩
    cropbox := ⟨false, 0, 0, 10, 10⟩
    mediabox := ⟨false, 0, 0, 10, 10⟩
    pixmap := fun _ _ => Except.ok [] }

/-- A well-formed one-page input document. -/
def trivialInput : PdfInput :=
  { openOk := true, pages := [trivialPage], basename := "doc" }

/-- A decode oracle that always fails. -/
def noDecode : List Nat → Option (List Nat) := fun _ => none

/-- The package produced from `trivialInput`. -/
def trivialBook : EpubBook :=
  { identifier := "pdf-" ++ "doc"
    title := "T"
    language := "zh"
    authors := ["A"]
    items := [cssItem, ⟨fpUid 1, fpName 1, "image/jpeg", []⟩, chapterItem, navItem, ncxItem]
    chapterBlocks := [Block.h1 "T".data, Block.fullpageImg (fpName 1) 1]
    toc := [("content.xhtml", "Main Content", "content")]
    spine := ["nav", "chapter"] }

theorem c1_fullpage_images_witness :
    pdf_to_epub_core noDecode trivialInput "T" "A" 100 = Except.ok trivialBook ∧
    fullpageNames trivialBook.items =
      (List.range' 1 trivialInput.pages.length).map fpName :=
  ⟨rfl, (c1_fullpage_images noDecode trivialInput "T" "A" 100 trivialBook rfl).1⟩

/-! ## Claim C8: block order within a page and across pages -/

/-- C8: in a successful conversion the chapter markup is the `<h1>` title
followed by one block group per page, in page order; each page's group is
its full-page image block first, then its text blocks (headings and
paragraphs), then its embedded-image blocks. -/
theorem c8_block_order (decode : List Nat → Option (List Nat)) (inp : PdfInput)
    (title author : String) (th : Nat) (book : EpubBook)
    (h : pdf_to_epub_core decode inp title author th = Except.ok book) :
    ∃ groups : List (List Block),
      book.chapterBlocks = Block.h1 title.data :: groups.join ∧
      groups.length = inp.pages.length ∧
      ∀ i (hi : i < groups.length), ∃ tb eb,
        groups.get ⟨i, hi⟩ = Block.fullpageImg (fpName (1 + i)) (1 + i) :: (tb ++ eb) ∧
        (∀ b ∈ tb, isTextBlock b = true) ∧
        (∀ b ∈ eb, ∃ fn j, b = Block.inlineImg fn j) :=
  (core_ok_inv h).2

theorem c8_block_order_witness :
    pdf_to_epub_core noDecode trivialInput "T" "A" 100 = Except.ok trivialBook ∧
    ∃ groups : List (List Block),
      trivialBook.chapterBlocks = Block.h1 "T".data :: groups.join ∧
      groups.length = trivialInput.pages.length ∧
      ∀ i (hi : i < groups.length), ∃ tb eb,
        groups.get ⟨i, hi⟩ = Block.fullpageImg (fpName (1 + i)) (1 + i) :: (tb ++ eb) ∧
        (∀ b ∈ tb, isTextBlock b = true) ∧
        (∀ b ∈ eb, ∃ fn j, b = Block.inlineImg fn j) :=
  ⟨rfl, c8_block_order noDecode trivialInput "T" "A" 100 trivialBook rfl⟩

/-! ## Claim C10: gapless numbering of embedded images -/

/-- C10: in a successful conversion the embedded-image identifiers added to
the package are exactly `embedded_1` … `embedded_K`, in that order and with
no gaps, where `K` is the number of embedded images that decoded
successfully (skipped images leave no hole in the numbering). -/
theorem c10_embedded_numbering (decode : List Nat → Option (List Nat)) (inp : PdfInput)
    (title author : String) (th : Nat) (book : EpubBook)
    (h : pdf_to_epub_core decode inp title author th = Except.ok book) :
    embeddedUids book.items =
      (List.range' 1 (totalSuccessCount decode inp.pages)).map emUid ∧
    book.items.filterMap (fun it => parseEmUid it.uid) =
      List.range' 1 (totalSuccessCount decode inp.pages) := by
  obtain ⟨hinv, -⟩ := core_ok_inv h
  exact ⟨hinv.2.2.2.2.2.1, hinv.2.1⟩

theorem c10_embedded_numbering_witness :
    pdf_to_epub_core noDecode trivialInput "T" "A" 100 = Except.ok trivialBook ∧
    embeddedUids trivialBook.items =
      (List.range' 1 (totalSuccessCount noDecode trivialInput.pages)).map emUid :=
  ⟨rfl, (c10_embedded_numbering noDecode trivialInput "T" "A" 100 trivialBook rfl).1⟩

/-! ## Claim C6: uniqueness of image identifiers and file names -/

theorem nodup_keys {α : Type} (key : α → String) (f g : String → Option Nat)
    (l : List α)
    (hsome : ∀ a ∈ l, (f (key a)).isSome = true ∨ (g (key a)).isSome = true)
    (hf : ((l.map key).filterMap f).Nodup) (hg : ((l.map key).filterMap g).Nodup) :
    (l.map key).Nodup := by
  by_contra hnd
  obtain ⟨x, hx⟩ := List.exists_duplicate_iff_not_nodup.2 hnd
  have hsub : List.Sublist [x, x] (l.map key) := List.duplicate_iff_sublist.1 hx
  have hmem : x ∈ l.map key := hsub.subset (by simp)
  obtain ⟨a, ha, hka⟩ := List.mem_map.1 hmem
  rcases hsome a ha with hs | hs
  · rw [hka] at hs
    obtain ⟨v, hv⟩ := Option.isSome_iff_exists.1 hs
    have h2 : List.Sublist ([x, x].filterMap f) ((l.map key).filterMap f) :=
      hsub.filterMap f
    rw [show [x, x].filterMap f = [v, v] from by simp [List.filterMap_cons, hv]] at h2
    exact (List.duplicate_iff_sublist.2 h2).not_nodup hf
  · rw [hka] at hs
    obtain ⟨v, hv⟩ := Option.isSome_iff_exists.1 hs
    have h2 : List.Sublist ([x, x].filterMap g) ((l.map key).filterMap g) :=
      hsub.filterMap g
    rw [show [x, x].filterMap g = [v, v] from by simp [List.filterMap_cons, hv]] at h2
    exact (List.duplicate_iff_sublist.2 h2).not_nodup hg

/-- C6: in a successful conversion, the identifiers of the image resources
(full-page and embedded together) are pairwise distinct, and so are their
file names. -/
theorem c6_unique_image_names (decode : List Nat → Option (List Nat)) (inp : PdfInput)
    (title author : String) (th : Nat) (book : EpubBook)
    (h : pdf_to_epub_core decode inp title author th = Except.ok book) :
    ((book.items.filter (fun it => it.media_type = "image/jpeg")).map
      (fun it => it.uid)).Nodup ∧
    ((book.items.filter (fun it => it.media_type = "image/jpeg")).map
      (fun it => it.file_name)).Nodup := by
  obtain ⟨hinv, -⟩ := core_ok_inv h
  obtain ⟨h1, h2, h3, h4, -, -, h7⟩ := hinv
  have hsubl : List.Sublist (book.items.filter (fun it => it.media_type = "image/jpeg"))
      book.items := List.filter_sublist book.items
  have hmemform : ∀ a ∈ book.items.filter (fun it => it.media_type = "image/jpeg"),
      (∃ i, a.uid = fpUid i ∧ a.file_name = fpName i) ∨
      (∃ j p, a.uid = emUid j ∧ a.file_name = emName p j) := by
    intro a ha
    have hmem := List.mem_filter.1 ha
    exact h7 a hmem.1 (by simpa using hmem.2)
  constructor
  · apply nodup_keys (fun it : EpubItem => it.uid) parseFpUid parseEmUid
    · intro a ha
      rcases hmemform a ha with ⟨i, hu, -⟩ | ⟨j, p, hu, -⟩
      · left
        rw [hu, parseFpUid_fpUid]
        rfl
      · right
        rw [hu, parseEmUid_emUid]
        rfl
    · rw [List.filterMap_map]
      have hs : List.Sublist
          ((book.items.filter (fun it => it.media_type = "image/jpeg")).filterMap
            (fun it => parseFpUid it.uid))
          (book.items.filterMap (fun it => parseFpUid it.uid)) := hsubl.filterMap _
      rw [h1] at hs
      exact (List.nodup_range' ..).sublist hs
    · rw [List.filterMap_map]
      have hs : List.Sublist
          ((book.items.filter (fun it => it.media_type = "image/jpeg")).filterMap
            (fun it => parseEmUid it.uid))
          (book.items.filterMap (fun it => parseEmUid it.uid)) := hsubl.filterMap _
      rw [h2] at hs
      exact (List.nodup_range' ..).sublist hs
  · apply nodup_keys (fun it : EpubItem => it.file_name) parseFpName parseEmName
    · intro a ha
      rcases hmemform a ha with ⟨i, -, hn⟩ | ⟨j, p, -, hn⟩
      · left
        rw [hn, parseFpName_fpName]
        rfl
      · right
        rw [hn, parseEmName_emName]
        rfl
    · rw [List.filterMap_map]
      have hs : List.Sublist
          ((book.items.filter (fun it => it.media_type = "image/jpeg")).filterMap
            (fun it => parseFpName it.file_name))
          (book.items.filterMap (fun it => parseFpName it.file_name)) := hsubl.filterMap _
      rw [h3] at hs
      exact (List.nodup_range' ..).sublist hs
    · rw [List.filterMap_map]
      have hs : List.Sublist
          ((book.items.filter (fun it => it.media_type = "image/jpeg")).filterMap
            (fun it => parseEmName it.file_name))
          (book.items.filterMap (fun it => parseEmName it.file_name)) := hsubl.filterMap _
      rw [h4] at hs
      exact (List.nodup_range' ..).sublist hs

theorem c6_unique_image_names_witness :
    pdf_to_epub_core noDecode trivialInput "T" "A" 100 = Except.ok trivialBook ∧
    ((trivialBook.items.filter (fun it => it.media_type = "image/jpeg")).map
      (fun it => it.uid)).Nodup :=
  ⟨rfl, (c6_unique_image_names noDecode trivialInput "T" "A" 100 trivialBook rfl).1⟩

/-! ## Claim C5: render-box priority -/

/-- C5: the full-page render region is selected by fixed priority over the
page's boxes — the bleed box if non-empty, else the trim box if non-empty,
else the crop box if non-empty, else the media box — and
`render_page_as_image` rasterises exactly the selected region. -/
theorem c5_box_priority (pg : Page) :
    (pg.bleedbox.is_empty = false → chooseRect pg = pg.bleedbox) ∧
    (pg.bleedbox.is_empty = true → pg.trimbox.is_empty = false →
      chooseRect pg = pg.trimbox) ∧
    (pg.bleedbox.is_empty = true → pg.trimbox.is_empty = true →
      pg.cropbox.is_empty = false → chooseRect pg = pg.cropbox) ∧
    (pg.bleedbox.is_empty = true → pg.trimbox.is_empty = true →
      pg.cropbox.is_empty = true → chooseRect pg = pg.mediabox) ∧
    ∀ dpi, render_page_as_image pg dpi = pg.pixmap (chooseRect pg) dpi := by
  refine ⟨?_, ?_, ?_, ?_, fun dpi => rfl⟩
  · intro hb
    unfold chooseRect
    rw [hb]
    simp
  · intro hb ht
    unfold chooseRect
    rw [hb, ht]
    simp
  · intro hb ht hc
    unfold chooseRect
    rw [hb, ht, hc]
    simp
  · intro hb ht hc
    unfold chooseRect
    rw [hb, ht, hc]
    simp

/-- A page whose bleed box is empty and whose trim box is non-empty. -/
def c5page : Page :=
  { text := []
    xobjects := none
    bleedbox := ⟨true, 0, 0, 0, 0⟩
    trimbox := ⟨false, 1, 1, 5, 5⟩
    cropbox := ⟨false, 0, 0, 9, 9⟩
    mediabox := ⟨false, 0, 0, 9, 9⟩
    pixmap := fun _ _ => Except.ok [] }

theorem c5_box_priority_witness :
    c5page.bleedbox.is_empty = true ∧ c5page.trimbox.is_empty = false ∧
    chooseRect c5page = c5page.trimbox :=
  ⟨rfl, rfl, (c5_box_priority c5page).2.1 rfl rfl⟩

/-! ## Claim C9: no partial output on a fatal error -/

/-- C9: the package is serialized exactly once, after every page has been
processed; a run that fails (input cannot be opened, or a page-rendering
error) writes no output file at all, and a successful run writes exactly
one file, the complete package. -/
theorem c9_no_partial_output (decode : List Nat → Option (List Nat)) (inp : PdfInput)
    (output_epub title author : String) (th : Nat) :
    ((∃ e, (pdf_to_epub decode inp output_epub title author th).1 = Except.error e) →
      (pdf_to_epub decode inp output_epub title author th).2 = []) ∧
    (∀ book, (pdf_to_epub decode inp output_epub title author th).1 = Except.ok book →
      (pdf_to_epub decode inp output_epub title author th).2 = [(output_epub, book)]) := by
  unfold pdf_to_epub
  cases hc : pdf_to_epub_core decode inp title author th with
  | error e =>
    exact ⟨fun _ => rfl, fun book hb => absurd hb (by simp)⟩
  | ok b =>
    refine ⟨fun he => ?_, fun book hbk => ?_⟩
    · obtain ⟨e, he⟩ := he
      exact absurd he (by simp)
    · have hb : b = book := by simpa using hbk
      rw [hb]

/-- An input whose document fails to open. -/
def failInput : PdfInput :=
  { openOk := false, pages := [], basename := "doc" }

theorem c9_no_partial_output_witness :
    (∃ e, (pdf_to_epub noDecode failInput "out.epub" "T" "A" 100).1 = Except.error e) ∧
    (pdf_to_epub noDecode failInput "out.epub" "T" "A" 100).2 = [] :=
  ⟨⟨(), rfl⟩,
   (c9_no_partial_output noDecode failInput "out.epub" "T" "A" 100).1 ⟨(), rfl⟩⟩

/-! ## Claim C7: image-decode failure is never fatal and only skips -/

/-- Outcome test for the embedded model of exceptions. -/
def isOkE {α : Type} (x : Except Unit α) : Bool :=
  match x with
  | Except.ok _ => true
  | Except.error _ => false

theorem processPage_render_error {decode : List Nat → Option (List Nat)} {pn : Nat}
    {st : LoopState} {pg : Page} {e : Unit}
    (hr : render_page_as_image pg 300 = Except.error e) :
    processPage decode pn st pg = Except.error e := by
  rw [processPage, hr]

theorem processPage_render_ok {decode : List Nat → Option (List Nat)} {pn : Nat}
    {st : LoopState} {pg : Page} {img : List Nat}
    (hr : render_page_as_image pg 300 = Except.ok img) :
    ∃ st', processPage decode pn st pg = Except.ok st' := by
  rw [processPage, hr]
  exact ⟨_, rfl⟩

theorem runPages_isOk_indep (decode decode' : List Nat → Option (List Nat)) :
    ∀ (pages : List Page) (pn pn' : Nat) (st st' : LoopState),
      isOkE (runPages decode pn st pages) = isOkE (runPages decode' pn' st' pages)
  | [], _, _, _, _ => rfl
  | pg :: rest, pn, pn', st, st' => by
    rw [runPages, runPages]
    cases hr : render_page_as_image pg 300 with
    | error e =>
      rw [@processPage_render_error decode pn st pg e hr,
        @processPage_render_error decode' pn' st' pg e hr]
    | ok img =>
      obtain ⟨st1, h1⟩ := @processPage_render_ok decode pn st pg img hr
      obtain ⟨st1', h1'⟩ := @processPage_render_ok decode' pn' st' pg img hr
      rw [h1, h1']
      exact runPages_isOk_indep decode decode' rest (pn + 1) (pn' + 1) st1 st1'

theorem decodedOk_false_of {decode : List Nat → Option (List Nat)} {x : XObject}
    (hx : x.subtypeIsImage = true → ∀ raw, x.data = Except.ok raw → raw ≠ [] →
      process_image decode raw = none) :
    decodedOk decode x = false := by
  obtain ⟨sub, data⟩ := x
  cases sub
  · rfl
  · cases data with
    | error e => rfl
    | ok raw =>
      unfold decodedOk
      by_cases hr : raw = []
      · subst hr
        simp
      · have := hx rfl raw rfl hr
        simp [this, hr]

/-- C7: (1) whether the conversion succeeds does not depend on the image
decoder at all — an embedded image that fails to decode is never fatal;
(2) an XObject whose raw data fails to decode (and likewise one that is
not an image, or whose data cannot be read, or is empty) is simply
omitted: deleting it from its page's resource dictionary leaves the
entire output unchanged. -/
theorem c7_decode_failure_skips (decode : List Nat → Option (List Nat)) :
    (∀ (decode' : List Nat → Option (List Nat)) (inp : PdfInput)
       (title author : String) (th : Nat),
       isOkE (pdf_to_epub_core decode inp title author th) =
       isOkE (pdf_to_epub_core decode' inp title author th)) ∧
    (∀ (openOk : Bool) (basename : String) (pre post : List Page) (pg : Page)
       (xs1 xs2 : List XObject) (x : XObject) (title author : String) (th : Nat),
       pg.xobjects = some (xs1 ++ x :: xs2) →
       (x.subtypeIsImage = true → ∀ raw, x.data = Except.ok raw → raw ≠ [] →
         process_image decode raw = none) →
       pdf_to_epub_core decode ⟨openOk, pre ++ pg :: post, basename⟩ title author th =
       pdf_to_epub_core decode
         ⟨openOk, pre ++ { pg with xobjects := some (xs1 ++ xs2) } :: post, basename⟩
         title author th) := by
  constructor
  · intro decode' inp title author th
    unfold pdf_to_epub_core
    by_cases ho : inp.openOk = true
    · rw [if_pos ho, if_pos ho]
      cases h1 : runPages decode 1 (initState title) inp.pages with
      | error e =>
        cases h2 : runPages decode' 1 (initState title) inp.pages with
        | error e2 => rfl
        | ok st2 =>
          have := runPages_isOk_indep decode decode' inp.pages 1 1
            (initState title) (initState title)
          rw [h1, h2] at this
          exact absurd this (by simp [isOkE])
      | ok st =>
        cases h2 : runPages decode' 1 (initState title) inp.pages with
        | error e2 =>
          have := runPages_isOk_indep decode decode' inp.pages 1 1
            (initState title) (initState title)
          rw [h1, h2] at this
          exact absurd this (by simp [isOkE])
        | ok st2 => rfl
    · rw [if_neg ho, if_neg ho]
  · intro openOk basename pre post pg xs1 xs2 x title author th hx hskipHyp
    have hskip : ∀ (pn : Nat) (acc : List Block × List EpubItem × Nat),
        xobjStep decode pn acc x = acc :=
      fun pn acc => xobjStep_skip (decodedOk_false_of hskipHyp) acc
    have hpp : ∀ pn st, processPage decode pn st pg =
        processPage decode pn st { pg with xobjects := some (xs1 ++ xs2) } := by
      intro pn st
      unfold processPage
      have hr2 : render_page_as_image { pg with xobjects := some (xs1 ++ xs2) } 300 =
          render_page_as_image pg 300 := rfl
      rw [hr2]
      cases hr : render_page_as_image pg 300 with
      | error e => rfl
      | ok img =>
        have hfold : processXObjects decode pn pg.xobjects
            (st.items ++ [⟨fpUid (st.fullpage_image_counter + 1), fpName pn,
              "image/jpeg", img⟩]) st.embedded_image_counter =
          processXObjects decode pn (some (xs1 ++ xs2))
            (st.items ++ [⟨fpUid (st.fullpage_image_counter + 1), fpName pn,
              "image/jpeg", img⟩]) st.embedded_image_counter := by
          rw [hx]
          show (xs1 ++ x :: xs2).foldl (xobjStep decode pn) _ =
            (xs1 ++ xs2).foldl (xobjStep decode pn) _
          rw [List.foldl_append, List.foldl_append, List.foldl_cons, hskip pn]
        simp only [hfold]
    have hrun : ∀ (pre2 : List Page) (pn : Nat) (st : LoopState),
        runPages decode pn st (pre2 ++ pg :: post) =
        runPages decode pn st (pre2 ++ { pg with xobjects := some (xs1 ++ xs2) } :: post) := by
      intro pre2
      induction pre2 with
      | nil =>
        intro pn st
        rw [List.nil_append, List.nil_append, runPages, runPages, hpp pn st]
      | cons q pre2 ih =>
        intro pn st
        rw [List.cons_append, List.cons_append, runPages, runPages]
        cases processPage decode pn st q with
        | error e => rfl
        | ok st1 => exact ih (pn + 1) st1
    unfold pdf_to_epub_core
    rw [hrun pre 1 (initState title)]

/-- An image XObject with readable non-empty data. -/
def c7xobj : XObject := ⟨true, Except.ok [1, 2, 3]⟩

/-- A page carrying `c7xobj` as its only XObject. -/
def c7page : Page :=
  { trivialPage with xobjects := some ([] ++ c7xobj :: []) }

theorem c7_decode_failure_skips_witness :
    c7page.xobjects = some ([] ++ c7xobj :: []) ∧
    (c7xobj.subtypeIsImage = true → ∀ raw, c7xobj.data = Except.ok raw → raw ≠ [] →
      process_image noDecode raw = none) ∧
    pdf_to_epub_core noDecode ⟨true, [] ++ c7page :: [], "doc"⟩ "T" "A" 100 =
      pdf_to_epub_core noDecode
        ⟨true, [] ++ { c7page with xobjects := some ([] ++ []) } :: [], "doc"⟩ "T" "A" 100 :=
  ⟨rfl, fun _ _ _ _ => rfl,
   (c7_decode_failure_skips noDecode).2 true "doc" [] [] c7page [] [] c7xobj "T" "A" 100
     rfl (fun _ _ _ _ => rfl)⟩

/-! ## Claim C2: heading classification -/

theorem char_not_lower_iff (c : Char) :
    (!(pyCharIsCased c) || pyCharIsUpper c) = true ↔ pyCharIsLower c = false := by
  simp only [pyCharIsCased, pyCharIsUpper, pyCharIsLower, Bool.or_eq_true,
    Bool.not_eq_true', Bool.or_eq_false_iff, decide_eq_true_eq, decide_eq_false_iff_not]
  omega

theorem pyIsUpper_iff (l : List Char) :
    pyIsUpper l = true ↔
      ((∃ c ∈ l, pyCharIsCased c = true) ∧ ∀ c ∈ l, pyCharIsLower c = false) := by
  unfold pyIsUpper
  rw [Bool.and_eq_true, List.any_eq_true, List.all_eq_true]
  constructor
  · rintro ⟨h1, h2⟩
    exact ⟨h1, fun c hc => (char_not_lower_iff c).1 (h2 c hc)⟩
  · rintro ⟨h1, h2⟩
    exact ⟨h1, fun c hc => (char_not_lower_iff c).2 (h2 c hc)⟩

/-- C2 (amended): a cleaned paragraph is classified as a heading iff its
length is under 150 characters AND it contains at least one cased
character AND it contains no lowercase letter (Python's `isupper()` is
false on strings with no cased character at all, so "no lowercase letters"
alone does not suffice); headings under 80 characters render as `<h2>`,
the others (length 80 to 149) as `<h3>`. -/
theorem c2_heading_classification (flag : Bool) (para : List Char) (b : Block)
    (h : (paraStep flag para).1 = [b]) :
    (isHeadingBlock b = true ↔
      ((combinedOf para).length < 150 ∧
       (∃ c ∈ combinedOf para, pyCharIsCased c = true) ∧
       ∀ c ∈ combinedOf para, pyCharIsLower c = false)) ∧
    (b = Block.h2 (combinedOf para) ↔
      (isHeadingBlock b = true ∧ (combinedOf para).length < 80)) ∧
    (b = Block.h3 (combinedOf para) ↔
      (isHeadingBlock b = true ∧ 80 ≤ (combinedOf para).length ∧
       (combinedOf para).length < 150)) := by
  have hco : combinedOf para =
      cleanChineseChars (joinSpace (((splitNL para).map pyStrip).filter
        (fun l => l ≠ []))) := rfl
  unfold paraStep at h
  by_cases h1 : ((splitNL para).map pyStrip).filter (fun l => l ≠ []) = []
  · rw [if_pos h1] at h
    exact absurd h (by simp)
  · rw [if_neg h1] at h
    by_cases h2 : (cleanChineseChars (joinSpace (((splitNL para).map pyStrip).filter
        (fun l => l ≠ [])))).length < 150 ∧
        pyIsUpper (cleanChineseChars (joinSpace (((splitNL para).map pyStrip).filter
          (fun l => l ≠ [])))) = true
    · rw [if_pos h2] at h
      have hup := (pyIsUpper_iff _).1 h2.2
      by_cases h3 : (cleanChineseChars (joinSpace (((splitNL para).map pyStrip).filter
          (fun l => l ≠ [])))).length < 80
      · rw [if_pos h3] at h
        simp only [List.cons.injEq, and_true] at h
        subst h
        rw [hco]
        refine ⟨?_, ?_, ?_⟩
        · simp only [isHeadingBlock]
          exact ⟨fun _ => ⟨h2.1, hup⟩, fun _ => trivial⟩
        · simp only [isHeadingBlock]
          exact ⟨fun _ => ⟨trivial, h3⟩, fun _ => trivial⟩
        · simp only [isHeadingBlock]
          constructor
          · intro hcontra
            exact absurd hcontra (by simp)
          · rintro ⟨-, h80, -⟩
            omega
      · rw [if_neg h3] at h
        simp only [List.cons.injEq, and_true] at h
        subst h
        rw [hco]
        refine ⟨?_, ?_, ?_⟩
        · simp only [isHeadingBlock]
          exact ⟨fun _ => ⟨h2.1, hup⟩, fun _ => trivial⟩
        · simp only [isHeadingBlock]
          constructor
          · intro hcontra
            exact absurd hcontra (by simp)
          · rintro ⟨-, h80⟩
            omega
        · simp only [isHeadingBlock]
          exact ⟨fun _ => ⟨trivial, by omega, h2.1⟩, fun _ => trivial⟩
    · rw [if_neg h2] at h
      have hb : b = Block.para flag (cleanChineseChars (joinSpace
          (((splitNL para).map pyStrip).filter (fun l => l ≠ [])))) := by
        cases flag
        · have h2b : [Block.para false (cleanChineseChars (joinSpace
              (((splitNL para).map pyStrip).filter (fun l => l ≠ []))))] = [b] := h
          injection h2b with hb1 hb2
          exact hb1.symm
        · have h2b : [Block.para true (cleanChineseChars (joinSpace
              (((splitNL para).map pyStrip).filter (fun l => l ≠ []))))] = [b] := h
          injection h2b with hb1 hb2
          exact hb1.symm
      subst hb
      rw [hco]
      refine ⟨?_, ?_, ?_⟩
      · simp only [isHeadingBlock]
        constructor
        · intro hcontra
          exact absurd hcontra (by simp)
        · rintro ⟨hlen, hcase, hlow⟩
          exact absurd ⟨hlen, (pyIsUpper_iff _).2 ⟨hcase, hlow⟩⟩ h2
      · constructor
        · intro hcontra
          exact absurd hcontra (by simp)
        · rintro ⟨hcontra, -⟩
          exact absurd hcontra (by simp [isHeadingBlock])
      · constructor
        · intro hcontra
          exact absurd hcontra (by simp)
        · rintro ⟨hcontra, -⟩
          exact absurd hcontra (by simp [isHeadingBlock])

theorem c2_heading_classification_witness :
    (paraStep true ['A', 'B']).1 = [Block.h2 ['A', 'B']] ∧
    (isHeadingBlock (Block.h2 ['A', 'B']) = true ↔
      ((combinedOf ['A', 'B']).length < 150 ∧
       (∃ c ∈ combinedOf ['A', 'B'], pyCharIsCased c = true) ∧
       ∀ c ∈ combinedOf ['A', 'B'], pyCharIsLower c = false)) :=
  ⟨by decide,
   (c2_heading_classification true ['A', 'B'] (Block.h2 ['A', 'B']) (by decide)).1⟩

/-- C2 (counterexample to the claim as stated): the cleaned paragraph
`"123"` has length under 150 and contains no lowercase letter, yet it is
classified as a body paragraph, not a heading — Python's `isupper()`
requires at least one cased character. -/
theorem c2_counterexample :
    ¬ ∀ (flag : Bool) (para : List Char) (b : Block),
        (paraStep flag para).1 = [b] →
        (isHeadingBlock b = true ↔
          ((combinedOf para).length < 150 ∧
           ∀ c ∈ combinedOf para, pyCharIsLower c = false)) := by
  intro hall
  have hinst := hall true ['1', '2', '3'] (Block.para true ['1', '2', '3']) (by decide)
  have hrhs : (combinedOf ['1', '2', '3']).length < 150 ∧
      ∀ c ∈ combinedOf ['1', '2', '3'], pyCharIsLower c = false := by decide
  have hcontra := hinst.2 hrhs
  exact absurd hcontra (by decide)

/-! ## Claim C3: indentation of body paragraphs -/

theorem getLastCons {b : Block} {l : List Block} (h : l ≠ []) :
    (b :: l).getLast? = l.getLast? := by
  cases l with
  | nil => exact absurd rfl h
  | cons x xs => rw [List.getLast?_cons_cons]

theorem emitParas_characterization :
    ∀ (ps : List (List Char)) (flag : Bool) (l1 : List Block) (nd : Bool) (s : List Char)
      (l2 : List Block),
      (emitParas flag ps).1 = l1 ++ Block.para nd s :: l2 →
      (nd = true ↔ ((l1 = [] ∧ flag = true) ∨
        (∃ b, l1.getLast? = some b ∧ isHeadingBlock b = true)))
  | [], flag, l1, nd, s, l2, h => by
    rw [emitParas] at h
    exact absurd h.symm (by cases l1 <;> simp)
  | p :: ps, flag, l1, nd, s, l2, h => by
    rw [emitParas] at h
    rcases paraStep_cases flag p with hp | ⟨s0, hp⟩ | ⟨s0, hp⟩ | ⟨s0, hp⟩ <;> rw [hp] at h
    · rw [List.nil_append] at h
      exact emitParas_characterization ps flag l1 nd s l2 h
    · cases l1 with
      | nil =>
        rw [List.nil_append] at h
        rw [List.cons_append] at h
        injection h with h1 h2
        exact absurd h1 (by simp)
      | cons b0 l1' =>
        rw [List.cons_append, List.cons_append] at h
        injection h with h1 h2
        subst h1
        have ih := emitParas_characterization ps true l1' nd s l2 h2
        rw [ih]
        by_cases hl : l1' = []
        · subst hl
          simp [isHeadingBlock]
        · rw [getLastCons hl]
          constructor
          · rintro (⟨he, -⟩ | hr)
            · exact absurd he hl
            · exact Or.inr hr
          · rintro (⟨he, -⟩ | hr)
            · exact absurd he (by simp)
            · exact Or.inr hr
    · cases l1 with
      | nil =>
        rw [List.nil_append] at h
        rw [List.cons_append] at h
        injection h with h1 h2
        exact absurd h1 (by simp)
      | cons b0 l1' =>
        rw [List.cons_append, List.cons_append] at h
        injection h with h1 h2
        subst h1
        have ih := emitParas_characterization ps true l1' nd s l2 h2
        rw [ih]
        by_cases hl : l1' = []
        · subst hl
          simp [isHeadingBlock]
        · rw [getLastCons hl]
          constructor
          · rintro (⟨he, -⟩ | hr)
            · exact absurd he hl
            · exact Or.inr hr
          · rintro (⟨he, -⟩ | hr)
            · exact absurd he (by simp)
            · exact Or.inr hr
    · cases l1 with
      | nil =>
        rw [List.nil_append] at h
        rw [List.cons_append] at h
        injection h with h1 h2
        injection h1 with h1a h1b
        subst h1a
        constructor
        · intro hnd
          exact Or.inl ⟨rfl, hnd⟩
        · rintro (⟨-, hf⟩ | ⟨b, hb, -⟩)
          · exact hf
          · exact absurd hb (by simp)
      | cons b0 l1' =>
        rw [List.cons_append, List.cons_append] at h
        injection h with h1 h2
        subst h1
        have ih := emitParas_characterization ps false l1' nd s l2 h2
        rw [ih]
        by_cases hl : l1' = []
        · subst hl
          simp [isHeadingBlock]
        · rw [getLastCons hl]
          constructor
          · rintro (⟨he, -⟩ | hr)
            · exact absurd he hl
            · exact Or.inr hr
          · rintro (⟨he, -⟩ | hr)
            · exact absurd he (by simp)
            · exact Or.inr hr

theorem emitParas_append (l1 l2 : List (List Char)) :
    ∀ flag : Bool, emitParas flag (l1 ++ l2) =
      ((emitParas flag l1).1 ++ (emitParas (emitParas flag l1).2 l2).1,
       (emitParas (emitParas flag l1).2 l2).2) := by
  induction l1 with
  | nil =>
    intro flag
    simp [emitParas]
  | cons p ps ih =>
    intro flag
    rw [List.cons_append, emitParas, emitParas, ih (paraStep flag p).2]
    simp [List.append_assoc]

theorem foldl_xobj_blocks {decode : List Nat → Option (List Nat)} {pn : Nat} :
    ∀ (xs : List XObject) (blocks : List Block) (items : List EpubItem) (e : Nat),
      ∃ nb, (xs.foldl (xobjStep decode pn) (blocks, items, e)).1 = blocks ++ nb ∧
        ∀ b ∈ nb, ∃ fn j, b = Block.inlineImg fn j
  | [], blocks, items, e => ⟨[], by simp, by simp⟩
  | x :: xs, blocks, items, e => by
    by_cases hx : decodedOk decode x = true
    · obtain ⟨img, hstep⟩ := @xobjStep_add decode pn x hx (blocks, items, e)
      rw [List.foldl_cons, hstep]
      obtain ⟨nb, hnb, hall⟩ := foldl_xobj_blocks xs
        (blocks ++ [Block.inlineImg (emName pn (e + 1)) (e + 1)])
        (items ++ [⟨emUid (e + 1), emName pn (e + 1), "image/jpeg", img⟩]) (e + 1)
      refine ⟨Block.inlineImg (emName pn (e + 1)) (e + 1) :: nb, by rw [hnb]; simp, ?_⟩
      intro b hb
      rcases List.mem_cons.1 hb with hb | hb
      · exact ⟨_, _, hb⟩
      · exact hall b hb
    · have hx' : decodedOk decode x = false := by
        revert hx
        cases decodedOk decode x <;> simp
      rw [List.foldl_cons, xobjStep_skip hx' (blocks, items, e)]
      exact foldl_xobj_blocks xs blocks items e

theorem processXObjects_blocks {decode : List Nat → Option (List Nat)} {pn : Nat}
    (xo : Option (List XObject)) (items : List EpubItem) (e : Nat) :
    ∀ b ∈ (processXObjects decode pn xo items e).1, ∃ fn j, b = Block.inlineImg fn j := by
  cases xo with
  | none => simp [processXObjects]
  | some xs =>
    obtain ⟨nb, hnb, hall⟩ := foldl_xobj_blocks xs [] items e
    intro b hb
    have heq : processXObjects decode pn (some xs) items e =
        xs.foldl (xobjStep decode pn) ([], items, e) := rfl
    rw [heq, hnb] at hb
    simp only [List.nil_append] at hb
    exact hall b hb

theorem processPage_text {decode : List Nat → Option (List Nat)} {pn : Nat}
    {st : LoopState} {pg : Page} {st' : LoopState}
    (h : processPage decode pn st pg = Except.ok st') :
    st'.html.filter isTextBlock = st.html.filter isTextBlock ++
      (emitParas st.is_first_para_after_heading (parasOfPage pg.text)).1 ∧
    st'.is_first_para_after_heading =
      (emitParas st.is_first_para_after_heading (parasOfPage pg.text)).2 := by
  rw [processPage] at h
  split at h
  · exact absurd h (by simp)
  next img hrend =>
    injection h with h
    subst h
    refine ⟨?_, rfl⟩
    show (st.html ++ [Block.fullpageImg (fpName pn) pn] ++
        (emitParas st.is_first_para_after_heading (parasOfPage pg.text)).1 ++
        (processXObjects decode pn pg.xobjects
          (st.items ++ [⟨fpUid (st.fullpage_image_counter + 1), fpName pn,
            "image/jpeg", img⟩]) st.embedded_image_counter).1).filter isTextBlock = _
    rw [List.filter_append, List.filter_append, List.filter_append]
    have h1 : [Block.fullpageImg (fpName pn) pn].filter isTextBlock = [] := rfl
    have h2 : ((processXObjects decode pn pg.xobjects
        (st.items ++ [⟨fpUid (st.fullpage_image_counter + 1), fpName pn,
          "image/jpeg", img⟩]) st.embedded_image_counter).1).filter isTextBlock = [] := by
      rw [List.filter_eq_nil_iff]
      intro b hb
      obtain ⟨fn, j, hbij⟩ := processXObjects_blocks _ _ _ b hb
      subst hbij
      simp [isTextBlock]
    have h3 : ((emitParas st.is_first_para_after_heading
        (parasOfPage pg.text)).1).filter isTextBlock =
        (emitParas st.is_first_para_after_heading (parasOfPage pg.text)).1 := by
      rw [List.filter_eq_self]
      intro b hb
      exact emitParas_text _ _ b hb
    rw [h1, h2, h3, List.append_nil, List.append_nil]

/-- The raw paragraphs of the whole document, in reading order. -/
def docParas (pages : List Page) : List (List Char) :=
  (pages.map (fun pg => parasOfPage pg.text)).join

theorem runPages_text {decode : List Nat → Option (List Nat)} :
    ∀ (pages : List Page) (pn : Nat) (st st' : LoopState),
      runPages decode pn st pages = Except.ok st' →
      st'.html.filter isTextBlock =
        st.html.filter isTextBlock ++
          (emitParas st.is_first_para_after_heading (docParas pages)).1 ∧
      st'.is_first_para_after_heading =
        (emitParas st.is_first_para_after_heading (docParas pages)).2
  | [], pn, st, st', h => by
    rw [runPages] at h
    injection h with h
    subst h
    simp [docParas, emitParas]
  | pg :: rest, pn, st, st', h => by
    rw [runPages] at h
    split at h
    · exact absurd h (by simp)
    next st1 hstep =>
      obtain ⟨hsw, hfl⟩ := processPage_text hstep
      obtain ⟨ih1, ih2⟩ := runPages_text rest (pn + 1) st1 st' h
      have hdoc : docParas (pg :: rest) = parasOfPage pg.text ++ docParas rest := by
        simp [docParas]
      rw [hdoc, emitParas_append]
      constructor
      · rw [ih1, hsw, hfl, List.append_assoc]
      · rw [ih2, hfl]

/-- C3 (amended): within the chapter's text blocks (the initial `<h1>`
title included), a body paragraph renders without indent exactly when the
text block immediately preceding it is a heading. The no-indent flag is
initialized once at document start and is NOT reset at page starts: the
first paragraph of a page is indented whenever the previous page's last
text block was a body paragraph. -/
theorem c3_indent_rule (decode : List Nat → Option (List Nat)) (inp : PdfInput)
    (title author : String) (th : Nat) (book : EpubBook)
    (h : pdf_to_epub_core decode inp title author th = Except.ok book)
    (l1 : List Block) (nd : Bool) (s : List Char) (l2 : List Block)
    (hsplit : book.chapterBlocks.filter isTextBlock = l1 ++ Block.para nd s :: l2) :
    nd = true ↔ ∃ b, l1.getLast? = some b ∧ isHeadingBlock b = true := by
  unfold pdf_to_epub_core at h
  split at h
  case isFalse => exact absurd h (by simp)
  case isTrue hopen =>
    split at h
    · exact absurd h (by simp)
    next st heq =>
      injection h with h
      subst h
      obtain ⟨htext, -⟩ := runPages_text inp.pages 1 (initState title) st heq
      have hinit : ((initState title).html.filter isTextBlock) = [Block.h1 title.data] := rfl
      rw [hinit] at htext
      have hsplit2 : st.html.filter isTextBlock = l1 ++ Block.para nd s :: l2 := hsplit
      rw [htext] at hsplit2
      clear hsplit
      have hsplit := hsplit2
      cases l1 with
      | nil =>
        rw [List.nil_append] at hsplit
        have : Block.h1 title.data = Block.para nd s := by
          have h0 := congrArg (fun l => l.head?) hsplit
          simpa using h0
        exact absurd this (by simp)
      | cons b0 l1' =>
        rw [List.cons_append] at hsplit
        have hb0 : b0 = Block.h1 title.data ∧
            (emitParas true (docParas inp.pages)).1 = l1' ++ Block.para nd s :: l2 := by
          constructor
          · have h0 := congrArg (fun l => l.head?) hsplit
            simpa using h0.symm
          · have h0 := congrArg (fun l => l.tail) hsplit
            simpa using h0
        obtain ⟨hb0eq, hrest⟩ := hb0
        subst hb0eq
        have hch := emitParas_characterization (docParas inp.pages) true l1' nd s l2 hrest
        rw [hch]
        by_cases hl : l1' = []
        · subst hl
          simp [isHeadingBlock]
        · rw [getLastCons hl]
          constructor
          · rintro (⟨he, -⟩ | hr)
            · exact absurd he hl
            · exact hr
          · intro hr
            exact Or.inr hr

/-- The two-page document of the C3 counterexample: each page carries a
single lowercase paragraph. -/
def c3pageA : Page := { trivialPage with text := ['a'] }

/-- Second page of the C3 counterexample. -/
def c3pageB : Page := { trivialPage with text := ['b'] }

/-- Two-page input for the C3 counterexample. -/
def c3input : PdfInput := { openOk := true, pages := [c3pageA, c3pageB], basename := "doc" }

/-- The package produced from `c3input`. -/
def c3book : EpubBook :=
  { identifier := "pdf-" ++ "doc"
    title := "T"
    language := "zh"
    authors := ["A"]
    items := [cssItem, ⟨fpUid 1, fpName 1, "image/jpeg", []⟩,
      ⟨fpUid 2, fpName 2, "image/jpeg", []⟩, chapterItem, navItem, ncxItem]
    chapterBlocks := [Block.h1 "T".data,
      Block.fullpageImg (fpName 1) 1, Block.para true ['a'],
      Block.fullpageImg (fpName 2) 2, Block.para false ['b']]
    toc := [("content.xhtml", "Main Content", "content")]
    spine := ["nav", "chapter"] }

/-- C3 (counterexample to the claim as stated): on a two-page document
whose pages each hold one body paragraph, the first paragraph of page 2 —
a paragraph at a page start — renders indented (`Block.para false`),
because the no-indent flag is consumed by page 1's paragraph and never
reset at page boundaries; the claim predicts it would render without
indent. -/
theorem c3_counterexample :
    pdf_to_epub_core noDecode c3input "T" "A" 100 = Except.ok c3book ∧
    c3book.chapterBlocks =
      [Block.h1 "T".data,
       Block.fullpageImg (fpName 1) 1, Block.para true ['a'],
       Block.fullpageImg (fpName 2) 2, Block.para false ['b']] :=
  ⟨rfl, rfl⟩

/-- One-page input for the C3 witness: a heading followed by two body
paragraphs. -/
def c3wpage : Page :=
  { trivialPage with text := ['A', 'B', '\n', '\n', 'x', 'y', '\n', '\n', 'z', 'w'] }

/-- Input document of the C3 witness. -/
def c3winput : PdfInput := { openOk := true, pages := [c3wpage], basename := "doc" }

/-- The package produced from `c3winput`. -/
def c3wbook : EpubBook :=
  { identifier := "pdf-" ++ "doc"
    title := "T"
    language := "zh"
    authors := ["A"]
    items := [cssItem, ⟨fpUid 1, fpName 1, "image/jpeg", []⟩, chapterItem, navItem, ncxItem]
    chapterBlocks := [Block.h1 "T".data, Block.fullpageImg (fpName 1) 1,
      Block.h2 ['A', 'B'], Block.para true ['x', 'y'], Block.para false ['z', 'w']]
    toc := [("content.xhtml", "Main Content", "content")]
    spine := ["nav", "chapter"] }

theorem c3_indent_rule_witness :
    pdf_to_epub_core noDecode c3winput "T" "A" 100 = Except.ok c3wbook ∧
    c3wbook.chapterBlocks.filter isTextBlock =
      [Block.h1 "T".data, Block.h2 ['A', 'B']] ++
        Block.para true ['x', 'y'] :: [Block.para false ['z', 'w']] ∧
    (true = true ↔ ∃ b, ([Block.h1 "T".data, Block.h2 ['A', 'B']]).getLast? = some b ∧
      isHeadingBlock b = true) :=
  ⟨rfl, by decide,
   c3_indent_rule noDecode c3winput "T" "A" 100 c3wbook rfl
     [Block.h1 "T".data, Block.h2 ['A', 'B']] true ['x', 'y']
     [Block.para false ['z', 'w']] (by decide)⟩

/-! ## Claim C4: idempotence of `clean_chinese_text`

The proof tracks two shape invariants through the three passes: `NAW`
(no two adjacent whitespace characters — established by the whitespace
collapse), and the absence of the patterns the CJK squeeze pass acts on
(`OccPair`) or can newly expose (`OccTriple`). -/

theorem bfalse {b : Bool} (h : ¬ b = true) : b = false := by
  cases b
  · rfl
  · exact absurd rfl h

/-- No two adjacent whitespace characters. -/
def NAW : List Char → Prop
  | [] => True
  | [_] => True
  | a :: b :: rest => ¬(isPySpace a = true ∧ isPySpace b = true) ∧ NAW (b :: rest)

theorem NAW_nil : NAW [] := trivial

theorem NAW_singleton (c : Char) : NAW [c] := trivial

theorem NAW_tail {a : Char} {l : List Char} (h : NAW (a :: l)) : NAW l := by
  cases l with
  | nil => trivial
  | cons b rest => exact h.2

theorem NAW_pair {a b : Char} {l : List Char} (h : NAW (a :: b :: l)) :
    ¬(isPySpace a = true ∧ isPySpace b = true) := h.1

theorem NAW_cons_of_not_ws {x : Char} {l : List Char} (hx : isPySpace x = false)
    (h : NAW l) : NAW (x :: l) := by
  cases l with
  | nil => trivial
  | cons b rest =>
    refine ⟨fun hcon => ?_, h⟩
    rw [hx] at hcon
    exact absurd hcon.1 (by simp)

theorem NAW_append_right : ∀ (u v : List Char), NAW (u ++ v) → NAW v
  | [], v, h => h
  | c :: u, v, h => NAW_append_right u v (NAW_tail h)

theorem NAW_append_left : ∀ (u v : List Char), NAW (u ++ v) → NAW u
  | [], _, _ => trivial
  | [c], _, _ => trivial
  | c :: d :: u, v, h => by
    refine ⟨h.1, NAW_append_left (d :: u) v ?_⟩
    exact NAW_tail h

theorem dropWhile_decomp (p : Char → Bool) :
    ∀ l : List Char, ∃ u, l = u ++ l.dropWhile p
  | [] => ⟨[], rfl⟩
  | c :: cs => by
    rw [List.dropWhile_cons]
    by_cases h : p c
    · rw [if_pos h]
      obtain ⟨u, hu⟩ := dropWhile_decomp p cs
      exact ⟨c :: u, by rw [List.cons_append, ← hu]⟩
    · rw [if_neg h]
      exact ⟨[], rfl⟩

theorem dropWhile_head_false (p : Char → Bool) (l : List Char) :
    l.dropWhile p = [] ∨ ∃ x t, l.dropWhile p = x :: t ∧ p x = false := by
  induction l with
  | nil => exact Or.inl rfl
  | cons c cs ih =>
    rw [List.dropWhile_cons]
    by_cases h : p c
    · rw [if_pos h]
      exact ih
    · rw [if_neg h]
      exact Or.inr ⟨c, cs, rfl, bfalse h⟩

theorem dropWhile_id_of_head {p : Char → Bool} {l : List Char}
    (h : ∀ x t, l = x :: t → p x = false) : l.dropWhile p = l := by
  cases l with
  | nil => rfl
  | cons c cs => rw [List.dropWhile_cons, if_neg (by rw [h c cs rfl]; simp)]

/-- An occurrence of the pattern the squeeze pass rewrites: a CJK
character, a single space, a CJK character. -/
def OccPair (l : List Char) : Prop :=
  ∃ u a b v, l = u ++ a :: ' ' :: b :: v ∧ isCJK a = true ∧ isCJK b = true

/-- An occurrence of CJK, space, CJK, space, CJK. -/
def OccTriple (l : List Char) : Prop :=
  ∃ u a b c v, l = u ++ a :: ' ' :: b :: ' ' :: c :: v ∧
    isCJK a = true ∧ isCJK b = true ∧ isCJK c = true

theorem OccPair_nil : ¬ OccPair [] := by
  rintro ⟨u, a, b, v, heq, -, -⟩
  exact absurd heq.symm (by simp)

theorem OccTriple_nil : ¬ OccTriple [] := by
  rintro ⟨u, a, b, c, v, heq, -, -, -⟩
  exact absurd heq.symm (by simp)

theorem OccPair_cons {x : Char} {l : List Char} (h : OccPair l) : OccPair (x :: l) := by
  obtain ⟨u, a, b, v, heq, ha, hb⟩ := h
  exact ⟨x :: u, a, b, v, by rw [heq, List.cons_append], ha, hb⟩

theorem OccTriple_cons {x : Char} {l : List Char} (h : OccTriple l) : OccTriple (x :: l) := by
  obtain ⟨u, a, b, c, v, heq, ha, hb, hc⟩ := h
  exact ⟨x :: u, a, b, c, v, by rw [heq, List.cons_append], ha, hb, hc⟩

theorem OccPair_cons_elim {x : Char} {l : List Char} (h : OccPair (x :: l)) :
    (isCJK x = true ∧ ∃ b v, l = ' ' :: b :: v ∧ isCJK b = true) ∨ OccPair l := by
  obtain ⟨u, a, b, v, heq, ha, hb⟩ := h
  cases u with
  | nil =>
    rw [List.nil_append] at heq
    injection heq with h1 h2
    subst h1
    exact Or.inl ⟨ha, b, v, h2, hb⟩
  | cons y u' =>
    rw [List.cons_append] at heq
    injection heq with h1 h2
    exact Or.inr ⟨u', a, b, v, h2, ha, hb⟩

theorem OccTriple_cons_elim {x : Char} {l : List Char} (h : OccTriple (x :: l)) :
    (isCJK x = true ∧ ∃ b c v, l = ' ' :: b :: ' ' :: c :: v ∧
      isCJK b = true ∧ isCJK c = true) ∨ OccTriple l := by
  obtain ⟨u, a, b, c, v, heq, ha, hb, hc⟩ := h
  cases u with
  | nil =>
    rw [List.nil_append] at heq
    injection heq with h1 h2
    subst h1
    exact Or.inl ⟨ha, b, c, v, h2, hb, hc⟩
  | cons y u' =>
    rw [List.cons_append] at heq
    injection heq with h1 h2
    exact Or.inr ⟨u', a, b, c, v, h2, ha, hb, hc⟩

theorem space_not_cjk : isCJK ' ' = false := by decide

theorem space_is_ws : isPySpace ' ' = true := by decide

theorem cjk_ne_space {d : Char} (h : isCJK d = true) : (d = ' ') = False := by
  simp only [eq_iff_iff, iff_false]
  rintro rfl
  rw [space_not_cjk] at h
  exact absurd h (by simp)

/-- When the tail is literally one space, a CJK character and the rest, the
match attempt fires. -/
theorem checkMatch_fires {d : Char} {ds : List Char} (hd : isCJK d = true) :
    checkMatch (' ' :: d :: ds) = some (d, ds) := by
  unfold checkMatch
  have h1 : (' ' :: d :: ds).dropWhile (fun x => x = ' ') = d :: ds := by
    rw [List.dropWhile_cons, if_pos (by simp), List.dropWhile_cons,
      if_neg (by simp [cjk_ne_space hd])]
  rw [h1]
  have h2 : (' ' :: d :: ds).takeWhile (fun x => x = ' ') = ' ' :: (d :: ds).takeWhile
      (fun x => x = ' ') := by
    rw [List.takeWhile_cons, if_pos (by simp)]
  rw [h2]
  simp [hd]

/-- Under `NAW`, a successful match attempt means the tail is exactly one
space, then a CJK (hence non-whitespace) character, then the rest. -/
theorem checkMatch_shape {cs : List Char} {d : Char} {ds : List Char}
    (hnaw : NAW cs) (h : checkMatch cs = some (d, ds)) :
    cs = ' ' :: d :: ds ∧ isCJK d = true ∧ isPySpace d = false := by
  unfold checkMatch at h
  split at h
  · exact absurd h (by simp)
  next d0 ds0 hdrop =>
    split at h
    next hguard =>
      injection h with h1
      injection h1 with h1 h2
      subst h1
      subst h2
      simp only [Bool.and_eq_true, Bool.not_eq_true'] at hguard
      obtain ⟨hne, hcjk⟩ := hguard
      cases cs with
      | nil => exact absurd hne (by simp [List.takeWhile])
      | cons c0 cs' =>
        have hc0 : c0 = ' ' := by
          by_contra hc
          rw [List.takeWhile_cons, if_neg (by simpa using hc)] at hne
          exact absurd hne (by simp)
        subst hc0
        cases cs' with
        | nil =>
          rw [List.dropWhile_cons, if_pos (by simp), List.dropWhile_nil] at hdrop
          exact absurd hdrop (by simp)
        | cons e cs'' =>
          have hews : isPySpace e = false := by
            have hp := NAW_pair hnaw
            rw [space_is_ws] at hp
            exact bfalse (fun hcon => hp ⟨rfl, hcon⟩)
          have hene : (e = ' ') = False := by
            simp only [eq_iff_iff, iff_false]
            rintro rfl
            rw [space_is_ws] at hews
            exact absurd hews (by simp)
          rw [List.dropWhile_cons, if_pos (by simp), List.dropWhile_cons,
            if_neg (by simp [hene])] at hdrop
          injection hdrop with hd1 hd2
          subst hd1
          subst hd2
          refine ⟨rfl, hcjk, hews⟩
    · exact absurd h (by simp)

theorem squeeze_cons_head (c : Char) (cs : List Char) :
    ∃ t, squeeze (c :: cs) = c :: t := by
  by_cases hc : isCJK c = true
  · rcases hm : checkMatch cs with - | ⟨d, ds⟩
    · exact ⟨squeeze cs, squeeze_cons_none hc hm⟩
    · exact ⟨d :: squeeze ds, squeeze_cons_some hc hm⟩
  · exact ⟨squeeze cs, squeeze_cons_not_cjk (bfalse hc)⟩

theorem checkMatch_some_cjk {cs : List Char} {d : Char} {ds : List Char}
    (h : checkMatch cs = some (d, ds)) : isCJK d = true := by
  unfold checkMatch at h
  split at h
  · exact absurd h (by simp)
  next d0 ds0 hdrop =>
    split at h
    next hguard =>
      injection h with h1
      injection h1 with h1 h2
      subst h1
      simp only [Bool.and_eq_true, Bool.not_eq_true'] at hguard
      exact hguard.2
    · exact absurd h (by simp)

/-- If `squeeze (x :: cs)` begins with the CJK character `x`, a space, and
a CJK character, we reach a contradiction: the scanner would have fired. -/
theorem squeeze_no_initial_pair {x : Char} {cs : List Char} {y : Char} {t : List Char}
    (hx : isCJK x = true) (hsq : squeeze (x :: cs) = x :: ' ' :: y :: t)
    (hy : isCJK y = true) : False := by
  rcases hm : checkMatch cs with - | ⟨d, ds⟩
  · rw [squeeze_cons_none hx hm] at hsq
    injection hsq with h1 h2
    cases cs with
    | nil =>
      rw [squeeze_nil] at h2
      exact absurd h2 (by simp)
    | cons c0 cs' =>
      obtain ⟨t0, ht0⟩ := squeeze_cons_head c0 cs'
      rw [ht0] at h2
      injection h2 with h3 h4
      subst h3
      have hsp : squeeze (' ' :: cs') = ' ' :: squeeze cs' :=
        squeeze_cons_not_cjk space_not_cjk
      rw [ht0] at hsp
      injection hsp with hsp1 h5
      rw [h5] at h4
      cases cs' with
      | nil =>
        rw [squeeze_nil] at h4
        exact absurd h4 (by simp)
      | cons e cs'' =>
        obtain ⟨t1, ht1⟩ := squeeze_cons_head e cs''
        rw [ht1] at h4
        injection h4 with h6 h7
        subst h6
        rw [checkMatch_fires hy] at hm
        exact absurd hm (by simp)
  · rw [squeeze_cons_some hx hm] at hsq
    injection hsq with hq1 h2
    injection h2 with h3 h2b
    have hd := checkMatch_some_cjk hm
    rw [h3, space_not_cjk] at hd
    exact absurd hd (by simp)

/-- If `squeeze ds` begins with a space followed by a CJK character `y`,
then `ds` begins with that same space and `y`, and the rest of the output
is the squeeze of the rest of `ds`. -/
theorem squeeze_space_head {ds : List Char} {y : Char} {t : List Char}
    (h : squeeze ds = ' ' :: y :: t) (hy : isCJK y = true) :
    ∃ ds2, ds = ' ' :: y :: ds2 ∧ squeeze (y :: ds2) = y :: t := by
  cases ds with
  | nil =>
    rw [squeeze_nil] at h
    exact absurd h (by simp)
  | cons e ds1 =>
    obtain ⟨t0, ht0⟩ := squeeze_cons_head e ds1
    rw [ht0] at h
    injection h with h1 h2
    subst h1
    have hsp : squeeze (' ' :: ds1) = ' ' :: squeeze ds1 :=
      squeeze_cons_not_cjk space_not_cjk
    rw [ht0] at hsp
    injection hsp with hsp1 h3
    rw [h3] at h2
    cases ds1 with
    | nil =>
      rw [squeeze_nil] at h2
      exact absurd h2 (by simp)
    | cons f ds2 =>
      obtain ⟨t1, ht1⟩ := squeeze_cons_head f ds2
      rw [ht1] at h2
      injection h2 with h4 h5
      subst h4
      refine ⟨ds2, rfl, ?_⟩
      rw [ht1, h5]

/-- The output of one squeeze pass never contains CJK, space, CJK, space,
CJK when the input has no adjacent whitespace. -/
theorem squeeze_noTriple_aux :
    ∀ (n : Nat) (l : List Char), l.length ≤ n → NAW l → ¬ OccTriple (squeeze l)
  | _, [], _, _ => by
    rw [squeeze_nil]
    exact OccTriple_nil
  | 0, c :: cs, hlen, _ => by simp at hlen
  | n + 1, c :: cs, hlen, hnaw => by
    simp only [List.length_cons, Nat.add_le_add_iff_right] at hlen
    intro hocc
    by_cases hc : isCJK c = true
    · rcases hm : checkMatch cs with - | ⟨d, ds⟩
      · rw [squeeze_cons_none hc hm] at hocc
        rcases OccTriple_cons_elim hocc with ⟨-, b, e, v, hsq, hb, he⟩ | hrest
        · obtain ⟨ds2, hds2, -⟩ := squeeze_space_head hsq hb
          rw [hds2, checkMatch_fires hb] at hm
          exact absurd hm (by simp)
        · exact squeeze_noTriple_aux n cs hlen (NAW_tail hnaw) hrest
      · obtain ⟨hcs, hd, hdws⟩ := checkMatch_shape (NAW_tail hnaw) hm
        rw [squeeze_cons_some hc hm] at hocc
        rcases OccTriple_cons_elim hocc with ⟨-, b, e, v, hsq, hb, he⟩ | hrest2
        · injection hsq with h1 hq2
          rw [cjk_ne_space hd] at h1
          exact h1
        · rcases OccTriple_cons_elim hrest2 with ⟨-, b, e, v, hsq, hb, he⟩ | hrest3
          · obtain ⟨ds2, hds2, hrest4⟩ := squeeze_space_head hsq hb
            exact squeeze_no_initial_pair hb hrest4 he
          · have hlds : ds.length ≤ n := by
              rw [hcs] at hlen
              simp only [List.length_cons] at hlen
              omega
            have hnawds : NAW ds := by
              have h1 : NAW cs := NAW_tail hnaw
              rw [hcs] at h1
              exact NAW_tail (NAW_tail h1)
            exact squeeze_noTriple_aux n ds hlds hnawds hrest3
    · rw [squeeze_cons_not_cjk (bfalse hc)] at hocc
      rcases OccTriple_cons_elim hocc with ⟨hcx, -⟩ | hrest
      · exact absurd hcx hc
      · exact squeeze_noTriple_aux n cs hlen (NAW_tail hnaw) hrest

/-- A second squeeze pass leaves no CJK-space-CJK pattern at all, provided
the input has no adjacent whitespace and no CJK-space-CJK-space-CJK
pattern (which the first pass guarantees). -/
theorem squeeze_noPair_aux :
    ∀ (n : Nat) (l : List Char), l.length ≤ n → NAW l → ¬ OccTriple l →
      ¬ OccPair (squeeze l)
  | _, [], _, _, _ => by
    rw [squeeze_nil]
    exact OccPair_nil
  | 0, c :: cs, hlen, _, _ => by simp at hlen
  | n + 1, c :: cs, hlen, hnaw, htri => by
    simp only [List.length_cons, Nat.add_le_add_iff_right] at hlen
    intro hocc
    by_cases hc : isCJK c = true
    · rcases hm : checkMatch cs with - | ⟨d, ds⟩
      · rw [squeeze_cons_none hc hm] at hocc
        rcases OccPair_cons_elim hocc with ⟨-, b, v, hsq, hb⟩ | hrest
        · obtain ⟨ds2, hds2, -⟩ := squeeze_space_head hsq hb
          rw [hds2, checkMatch_fires hb] at hm
          exact absurd hm (by simp)
        · exact squeeze_noPair_aux n cs hlen (NAW_tail hnaw)
            (fun ht => htri (OccTriple_cons ht)) hrest
      · obtain ⟨hcs, hd, hdws⟩ := checkMatch_shape (NAW_tail hnaw) hm
        rw [squeeze_cons_some hc hm] at hocc
        rcases OccPair_cons_elim hocc with ⟨-, b, v, hsq, hb⟩ | hrest2
        · injection hsq with h1 hq2
          rw [cjk_ne_space hd] at h1
          exact h1
        · rcases OccPair_cons_elim hrest2 with ⟨-, b, v, hsq, hb⟩ | hrest3
          · obtain ⟨ds2, hds2, -⟩ := squeeze_space_head hsq hb
            refine htri ⟨[], c, d, b, ds2, ?_, hc, hd, hb⟩
            rw [hcs, hds2]
            rfl
          · have hlds : ds.length ≤ n := by
              rw [hcs] at hlen
              simp only [List.length_cons] at hlen
              omega
            have hnawds : NAW ds := by
              have h1 : NAW cs := NAW_tail hnaw
              rw [hcs] at h1
              exact NAW_tail (NAW_tail h1)
            have htrids : ¬ OccTriple ds := by
              intro ht
              apply htri
              have h1 : OccTriple (d :: ds) := OccTriple_cons ht
              have h2 : OccTriple (' ' :: d :: ds) := OccTriple_cons h1
              have h3 : OccTriple (c :: ' ' :: d :: ds) := OccTriple_cons h2
              rw [hcs]
              exact h3
            exact squeeze_noPair_aux n ds hlds hnawds htrids hrest3
    · rw [squeeze_cons_not_cjk (bfalse hc)] at hocc
      rcases OccPair_cons_elim hocc with ⟨hcx, -⟩ | hrest
      · exact absurd hcx hc
      · exact squeeze_noPair_aux n cs hlen (NAW_tail hnaw)
          (fun ht => htri (OccTriple_cons ht)) hrest

/-- On an input with no adjacent whitespace and no CJK-space-CJK pattern,
the squeeze pass is the identity. -/
theorem squeeze_id_aux :
    ∀ (n : Nat) (l : List Char), l.length ≤ n → NAW l → ¬ OccPair l → squeeze l = l
  | _, [], _, _, _ => squeeze_nil
  | 0, c :: cs, hlen, _, _ => by simp at hlen
  | n + 1, c :: cs, hlen, hnaw, hpair => by
    simp only [List.length_cons, Nat.add_le_add_iff_right] at hlen
    by_cases hc : isCJK c = true
    · rcases hm : checkMatch cs with - | ⟨d, ds⟩
      · rw [squeeze_cons_none hc hm,
          squeeze_id_aux n cs hlen (NAW_tail hnaw) (fun hp => hpair (OccPair_cons hp))]
      · obtain ⟨hcs, hd, -⟩ := checkMatch_shape (NAW_tail hnaw) hm
        exact absurd ⟨[], c, d, ds, by rw [hcs]; rfl, hc, hd⟩ hpair
    · rw [squeeze_cons_not_cjk (bfalse hc),
        squeeze_id_aux n cs hlen (NAW_tail hnaw) (fun hp => hpair (OccPair_cons hp))]

/-- The squeeze pass preserves the absence of adjacent whitespace. -/
theorem squeeze_NAW_aux :
    ∀ (n : Nat) (l : List Char), l.length ≤ n → NAW l → NAW (squeeze l)
  | _, [], _, _ => by
    rw [squeeze_nil]
    exact NAW_nil
  | 0, c :: cs, hlen, _ => by simp at hlen
  | n + 1, c :: cs, hlen, hnaw => by
    simp only [List.length_cons, Nat.add_le_add_iff_right] at hlen
    by_cases hc : isCJK c = true
    · rcases hm : checkMatch cs with - | ⟨d, ds⟩
      · rw [squeeze_cons_none hc hm]
        have hIH := squeeze_NAW_aux n cs hlen (NAW_tail hnaw)
        cases hsq : squeeze cs with
        | nil => exact NAW_singleton c
        | cons e t =>
          cases cs with
          | nil =>
            rw [squeeze_nil] at hsq
            exact absurd hsq (by simp)
          | cons c1 cs' =>
            obtain ⟨t0, ht0⟩ := squeeze_cons_head c1 cs'
            rw [ht0] at hsq
            injection hsq with h1 h2
            subst h1
            rw [ht0] at hIH
            rw [h2] at hIH
            exact ⟨NAW_pair hnaw, hIH⟩
      · obtain ⟨hcs, hd, hdws⟩ := checkMatch_shape (NAW_tail hnaw) hm
        rw [squeeze_cons_some hc hm]
        have hcws : isPySpace c = false := by
          have hp : ¬(isPySpace c = true ∧ isPySpace ' ' = true) := by
            have h1 := hnaw
            rw [hcs] at h1
            exact NAW_pair h1
          exact bfalse (fun hcon => hp ⟨hcon, space_is_ws⟩)
        have hlds : ds.length ≤ n := by
          rw [hcs] at hlen
          simp only [List.length_cons] at hlen
          omega
        have hnawds : NAW ds := by
          have h1 : NAW cs := NAW_tail hnaw
          rw [hcs] at h1
          exact NAW_tail (NAW_tail h1)
        exact NAW_cons_of_not_ws hcws
          (NAW_cons_of_not_ws hdws (squeeze_NAW_aux n ds hlds hnawds))
    · rw [squeeze_cons_not_cjk (bfalse hc)]
      have hIH := squeeze_NAW_aux n cs hlen (NAW_tail hnaw)
      cases hsq : squeeze cs with
      | nil => exact NAW_singleton c
      | cons e t =>
        cases cs with
        | nil =>
          rw [squeeze_nil] at hsq
          exact absurd hsq (by simp)
        | cons c1 cs' =>
          obtain ⟨t0, ht0⟩ := squeeze_cons_head c1 cs'
          rw [ht0] at hsq
          injection hsq with h1 h2
          subst h1
          rw [ht0] at hIH
          rw [h2] at hIH
          exact ⟨NAW_pair hnaw, hIH⟩

theorem collapse_head_not_ws {e : Char} (he : isPySpace e = false) :
    ∀ r : List Char, ∃ t, collapseWs (e :: r) = e :: t
  | [] => ⟨[], collapseWs_singleton e⟩
  | f :: r' => by
    rw [collapseWs_cons, if_neg (by rw [he]; simp)]
    exact ⟨collapseWs (f :: r'), rfl⟩

/-- The whitespace collapse leaves no two adjacent whitespace characters. -/
theorem collapse_NAW_aux :
    ∀ (n : Nat) (l : List Char), l.length ≤ n → NAW (collapseWs l)
  | _, [], _ => by rw [collapseWs_nil]; exact NAW_nil
  | _, [c], _ => by rw [collapseWs_singleton]; exact NAW_singleton c
  | 0, c :: d :: rest, hlen => by simp at hlen
  | n + 1, c :: d :: rest, hlen => by
    simp only [List.length_cons, Nat.add_le_add_iff_right] at hlen
    rw [collapseWs_cons]
    by_cases hc : isPySpace c = true
    · rw [if_pos hc]
      by_cases hd : isPySpace d = true
      · rw [if_pos hd]
        rcases dropWhile_head_false isPySpace (d :: rest) with hnil | ⟨e, t', hdw, hews⟩
        · rw [hnil, collapseWs_nil]
          exact NAW_singleton ' '
        · rw [hdw]
          obtain ⟨t2, ht2⟩ := collapse_head_not_ws hews t'
          rw [ht2]
          have hIH : NAW (collapseWs (e :: t')) := by
            have hlt : (e :: t').length ≤ n := by
              have := dropWhileLen isPySpace (d :: rest)
              rw [hdw] at this
              simp only [List.length_cons] at this ⊢
              omega
            exact collapse_NAW_aux n (e :: t') hlt
          rw [ht2] at hIH
          refine ⟨fun hcon => ?_, hIH⟩
          rw [hews] at hcon
          exact absurd hcon.2 (by simp)
      · rw [if_neg hd]
        have hdf : isPySpace d = false := bfalse hd
        obtain ⟨t2, ht2⟩ := collapse_head_not_ws hdf rest
        rw [ht2]
        have hIH := collapse_NAW_aux n (d :: rest) hlen
        rw [ht2] at hIH
        refine ⟨fun hcon => ?_, hIH⟩
        rw [hdf] at hcon
        exact absurd hcon.2 (by simp)
    · rw [if_neg hc]
      exact NAW_cons_of_not_ws (bfalse hc) (collapse_NAW_aux n (d :: rest) hlen)

/-- The whitespace collapse is the identity on inputs with no adjacent
whitespace. -/
theorem collapse_id_aux :
    ∀ (n : Nat) (l : List Char), l.length ≤ n → NAW l → collapseWs l = l
  | _, [], _, _ => collapseWs_nil
  | _, [c], _, _ => collapseWs_singleton c
  | 0, c :: d :: rest, hlen, _ => by simp at hlen
  | n + 1, c :: d :: rest, hlen, hnaw => by
    simp only [List.length_cons, Nat.add_le_add_iff_right] at hlen
    rw [collapseWs_cons]
    by_cases hc : isPySpace c = true
    · have hd : isPySpace d = false :=
        bfalse (fun hcon => NAW_pair hnaw ⟨hc, hcon⟩)
      rw [if_pos hc, if_neg (by rw [hd]; simp),
        collapse_id_aux n (d :: rest) hlen (NAW_tail hnaw)]
    · rw [if_neg hc, collapse_id_aux n (d :: rest) hlen (NAW_tail hnaw)]

theorem dropTrailing_decomp (l : List Char) : ∃ w, l = dropTrailingWs l ++ w := by
  obtain ⟨u, hu⟩ := dropWhile_decomp isPySpace l.reverse
  have h2 := congrArg List.reverse hu
  rw [List.reverse_reverse, List.reverse_append] at h2
  exact ⟨u.reverse, h2⟩

theorem strip_decomp (l : List Char) : ∃ u w, l = u ++ (pyStrip l ++ w) := by
  obtain ⟨u, hu⟩ := dropWhile_decomp isPySpace l
  obtain ⟨w, hw⟩ := dropTrailing_decomp (dropLeadingWs l)
  refine ⟨u, w, ?_⟩
  show l = u ++ (dropTrailingWs (dropLeadingWs l) ++ w)
  rw [← hw]
  exact hu

theorem strip_NAW {l : List Char} (h : NAW l) : NAW (pyStrip l) := by
  obtain ⟨u, w, hdec⟩ := strip_decomp l
  rw [hdec] at h
  exact NAW_append_left _ w (NAW_append_right u _ h)

theorem OccPair_strip {l : List Char} (h : OccPair (pyStrip l)) : OccPair l := by
  obtain ⟨u, w, hdec⟩ := strip_decomp l
  obtain ⟨u2, a, b, v, heq, ha, hb⟩ := h
  refine ⟨u ++ u2, a, b, v ++ w, ?_, ha, hb⟩
  rw [hdec, heq]
  simp

theorem dropWhile_idem (p : Char → Bool) (l : List Char) :
    (l.dropWhile p).dropWhile p = l.dropWhile p := by
  rcases dropWhile_head_false p l with hnil | ⟨x, t, hx, hpx⟩
  · rw [hnil]
    rfl
  · rw [hx, List.dropWhile_cons, if_neg (by rw [hpx]; simp)]

theorem strip_idem (l : List Char) : pyStrip (pyStrip l) = pyStrip l := by
  have hleft : dropLeadingWs (pyStrip l) = pyStrip l := by
    rcases hs : pyStrip l with - | ⟨x, t⟩
    · rfl
    · have hx : isPySpace x = false := by
        obtain ⟨w, hw⟩ := dropTrailing_decomp (dropLeadingWs l)
        rcases dropWhile_head_false isPySpace l with hnil | ⟨x0, t0, hx0, hpx0⟩
        · have hdl : dropLeadingWs l = [] := hnil
          unfold pyStrip at hs
          rw [hdl] at hs
          simp [dropTrailingWs] at hs
        · have hw2 : x0 :: t0 = (pyStrip l) ++ w := by
            unfold dropLeadingWs at hw
            rw [← hx0]
            exact hw
          rw [hs] at hw2
          rw [List.cons_append] at hw2
          injection hw2 with h1 h2
          rw [← h1]
          exact hpx0
      show dropLeadingWs (x :: t) = x :: t
      unfold dropLeadingWs
      rw [List.dropWhile_cons, if_neg (by rw [hx]; simp)]
  have hright : dropTrailingWs (pyStrip l) = pyStrip l := by
    show dropTrailingWs (dropTrailingWs (dropLeadingWs l)) = pyStrip l
    unfold dropTrailingWs
    rw [List.reverse_reverse, dropWhile_idem]
    rfl
  show dropTrailingWs (dropLeadingWs (pyStrip l)) = pyStrip l
  rw [hleft, hright]

/-- C4: `clean_chinese_text` is idempotent — normalizing an
already-normalized string returns it unchanged. -/
theorem c4_normalizer_idempotent (s : String) :
    clean_chinese_text (clean_chinese_text s) = clean_chinese_text s := by
  have main : ∀ l : List Char, cleanChineseChars (cleanChineseChars l) = cleanChineseChars l := by
    intro l
    have hnaw0 : NAW (collapseWs l) := collapse_NAW_aux l.length l le_rfl
    have hnaw1 : NAW (squeeze (collapseWs l)) :=
      squeeze_NAW_aux _ _ le_rfl hnaw0
    have hnaw2 : NAW (squeeze (squeeze (collapseWs l))) :=
      squeeze_NAW_aux _ _ le_rfl hnaw1
    have htri : ¬ OccTriple (squeeze (collapseWs l)) :=
      squeeze_noTriple_aux _ _ le_rfl hnaw0
    have hpair : ¬ OccPair (squeeze (squeeze (collapseWs l))) :=
      squeeze_noPair_aux _ _ le_rfl hnaw1 htri
    have hnawS : NAW (cleanChineseChars l) := strip_NAW hnaw2
    have hpairS : ¬ OccPair (cleanChineseChars l) := fun h => hpair (OccPair_strip h)
    show pyStrip (squeeze (squeeze (collapseWs (cleanChineseChars l)))) = cleanChineseChars l
    rw [collapse_id_aux _ _ le_rfl hnawS,
      squeeze_id_aux _ _ le_rfl hnawS hpairS,
      squeeze_id_aux _ _ le_rfl hnawS hpairS]
    exact strip_idem (squeeze (squeeze (collapseWs l)))
  show String.mk (cleanChineseChars (clean_chinese_text s).data) = clean_chinese_text s
  have hdata : (clean_chinese_text s).data = cleanChineseChars s.data := rfl
  rw [hdata, main s.data]
  rfl
